import Mathlib

/-!
Verification development for the slogassert repository (a slog testing
handler written in Go).  The Go code is shallowly embedded: Go strings are
lists of characters, Go maps are association lists in insertion order,
machine integers are `Int`/`Nat` with explicit reductions modulo `2 ^ 64`
where Go conversions wrap, and `float64` values are carried as the exact
rational number the (non-NaN) double denotes.  Stateful code is embedded by
explicit state passing; the pointer-graph behaviour of `groupedAttrs.clone`
and `groupedAttrs.set` is embedded against an explicit heap.
-/

namespace Slogassert

/-- A Go string, as its list of characters. -/
abbrev GoStr := List Char

/-- Shorthand to build a `GoStr` from a literal. -/
def gs (s : String) : GoStr := s.data

/-- `slog.Level` is an integer type; `LevelDontCare = slog.Level(-255000000)`
(assertions.go). -/
abbrev Level := Int

/-- `LevelDontCare` from assertions.go. -/
def levelDontCare : Level := -255000000

/-- The universe of ordinary Go runtime values that occur in this
development as matcher literals or as the payload of a `KindAny`
`slog.Value`.  `int` is the platform `int` type (64-bit, carried as `Int`);
`duration` is `time.Duration` (int64 nanoseconds); `time` is a `time.Time`
instant (carried as an integer instant so that `time.Equal`, which compares
instants, is plain equality); `float64` carries the exact rational value of
a non-NaN double; `other` stands for any further runtime type, identified
by a tag, on which Go `==`/`reflect.DeepEqual` is tag equality. -/
inductive GoVal where
  | bool (b : Bool)
  | int (n : Int)
  | int64 (n : Int)
  | uint64 (n : Nat)
  | float64 (q : Rat)
  | str (s : GoStr)
  | duration (n : Int)
  | time (t : Int)
  | other (tag : Nat)
deriving DecidableEq

mutual
/-- `slog.Value`, by kind (handler.go stores these in `LogMessage.Attrs`).
`group` carries its member attributes; `logValuer` models a value of
`KindLogValuer`: `id` is the identity of the underlying `slog.LogValuer`
interface value (Go `==` on two such values compares the interface values,
not their outputs) and `out` is the result of calling `LogValue()` on it. -/
inductive Value where
  | any (g : GoVal)
  | bool (b : Bool)
  | duration (n : Int)
  | float64 (q : Rat)
  | int64 (n : Int)
  | str (s : GoStr)
  | time (t : Int)
  | uint64 (n : Nat)
  | group (attrs : AttrList)
  | logValuer (id : Nat) (out : Value)

/-- A list of `slog.Attr` (key/value pairs), as its own inductive so that
all recursions over nested groups stay structural. -/
inductive AttrList where
  | nil
  | cons (key : GoStr) (v : Value) (rest : AttrList)
end

/-- `slog.Value.Resolve()`: repeatedly calls `LogValue` while the value has
`KindLogValuer`, returning the final value.  (The stdlib caps this at 100
levels; the model resolves any finite nesting, which agrees on all values
the repository's tests construct.) -/
def Value.resolve : Value → Value
  | .logValuer _ out => out.resolve
  | v => v

mutual
/-- `slog.Value.Equal`: kinds must agree; numeric/boolean/string/duration
payloads compare with `==`, times compare as instants (`time.Equal`),
groups compare as equal-length lists of pairwise-equal attrs, `KindAny`
payloads compare with Go `==`, and two `KindLogValuer` values compare the
underlying interface values (modelled by their identity tags). -/
def Value.equalV : Value → Value → Bool
  | .any g, .any g' => g = g'
  | .bool b, .bool b' => b = b'
  | .duration n, .duration n' => n = n'
  | .float64 q, .float64 q' => q = q'
  | .int64 n, .int64 n' => n = n'
  | .str s, .str s' => s = s'
  | .time t, .time t' => t = t'
  | .uint64 n, .uint64 n' => n = n'
  | .group l, .group l' => AttrList.equalL l l'
  | .logValuer i _, .logValuer i' _ => i = i'
  | _, _ => false

/-- `slices.EqualFunc(_, _, Attr.Equal)` on the members of two groups. -/
def AttrList.equalL : AttrList → AttrList → Bool
  | .nil, .nil => true
  | .cons k v r, .cons k' v' r' => k = k' && Value.equalV v v' && AttrList.equalL r r'
  | _, _ => false
end

/-- The matcher argument of `matchAttr` (assertions.go): a Go `any` holding
one of the runtime shapes the type switches distinguish.  `pred` is
`func(slog.Value) bool`; the `predX` constructors are the kind-typed
predicate forms; `lit` is any concrete Go value; `logValuer` is a matcher
whose dynamic type implements `slog.LogValuer` (carrying the result of its
`LogValue()` call); `goNil` is a nil interface value, which no type-switch
case (not even `case any:`) matches. -/
inductive Matcher where
  | pred (p : Value → Bool)
  | predAny (p : GoVal → Bool)
  | predBool (p : Bool → Bool)
  | predDuration (p : Int → Bool)
  | predFloat (p : Rat → Bool)
  | predInt64 (p : Int → Bool)
  | predStr (p : GoStr → Bool)
  | predTime (p : Int → Bool)
  | predUint64 (p : Nat → Bool)
  | lit (g : GoVal)
  | logValuer (out : Value)
  | goNil

/-- The outcome of `matchAttr`: `matched` is a nil error, `notMatched` is
`errNoMatch`, `invalidMatcherType` is the `fmt.Errorf("invalid type for
comparing ...")` family, and `panicked` is the `panic` in the default kind
branch (reached only for `KindGroup`, which never occurs in stored,
flattened attributes). -/
inductive MatchResult where
  | matched
  | notMatched
  | invalidMatcherType
  | panicked
deriving DecidableEq

/-- Convert a boolean comparison outcome to the error convention used by
`matchAttr`. -/
def boolToMR (b : Bool) : MatchResult := if b then .matched else .notMatched

/-- Go conversion `uint64(n)` applied to a (64-bit) `int`: reduction modulo
`2 ^ 64`. -/
def intToUint64 (n : Int) : Nat := (n % (2 ^ 64 : Int)).toNat

/-- Number of binary digits of `n`, computed with explicit structural fuel
so that it evaluates by kernel reduction; `128` units of fuel are ample for
every number below `2 ^ 128` (all modelled Go ints). -/
def bitLenAux : Nat → Nat → Nat
  | 0, _ => 0
  | f + 1, n => if n = 0 then 0 else bitLenAux f (n / 2) + 1

/-- Number of binary digits of `n` (`0` for `0`). -/
def bitLen (n : Nat) : Nat := bitLenAux 128 n

/-- Go conversion `float64(m)` of a natural number: the exact integer value
of the nearest double, rounding ties to even (IEEE 754
round-to-nearest-even).  Numbers up to `2 ^ 53` are exactly representable;
above that the low `bitLen m - 53` bits are rounded away. -/
def f64ofNat (m : Nat) : Nat :=
  if m ≤ 2 ^ 53 then m
  else
    let e := bitLen m - 53
    let q := m / 2 ^ e
    let r := m % 2 ^ e
    let h := 2 ^ (e - 1)
    let q' := if h < r ∨ (r = h ∧ q % 2 = 1) then q + 1 else q
    q' * 2 ^ e

/-- Go conversion `float64(n)` of a (64-bit) `int`: exact integer value of
the resulting double. -/
def f64ofInt (n : Int) : Int :=
  if n < 0 then -(f64ofNat n.natAbs : Int) else (f64ofNat n.natAbs : Int)

/-- `matchAttr` (assertions.go): first, a matcher implementing
`slog.LogValuer` is resolved via `LogValue()` and compared to the stored
value with `slog.Value.Equal`; otherwise the function switches on the
stored value's kind and, per kind, accepts `func(slog.Value) bool`, the
kind-typed predicate, and a concrete literal of the native type (for
`KindFloat64`, `KindInt64` and `KindUint64` additionally a plain `int`
literal, converted by Go conversion to the stored kind).  For `KindAny`,
the `case any:` arm catches every non-nil matcher and compares with
`reflect.DeepEqual` (two non-nil functions are never deeply equal).  All
other shapes fall to the `default:` arm, `invalidMatcherType`.  A
`KindLogValuer` stored value recurses on `val.LogValuer().LogValue()`;
`KindGroup` reaches the `default:` arm of the kind switch, a panic. -/
def matchAttr : Matcher → Value → MatchResult
  | .logValuer out, v => boolToMR (Value.equalV out v)
  | m, .any g =>
    match m with
    | .pred p => boolToMR (p (.any g))
    | .predAny p => boolToMR (p g)
    | .lit g' => boolToMR (g' = g)
    | .goNil => .invalidMatcherType
    | _ => .notMatched
  | m, .bool b =>
    match m with
    | .pred p => boolToMR (p (.bool b))
    | .predBool p => boolToMR (p b)
    | .lit (.bool b') => boolToMR (b' = b)
    | _ => .invalidMatcherType
  | m, .duration n =>
    match m with
    | .pred p => boolToMR (p (.duration n))
    | .predDuration p => boolToMR (p n)
    | .lit (.duration n') => boolToMR (n' = n)
    | _ => .invalidMatcherType
  | m, .float64 q =>
    match m with
    | .pred p => boolToMR (p (.float64 q))
    | .predFloat p => boolToMR (p q)
    | .lit (.float64 q') => boolToMR (q' = q)
    | .lit (.int n) => boolToMR ((f64ofInt n : Rat) = q)
    | _ => .invalidMatcherType
  | m, .int64 v =>
    match m with
    | .pred p => boolToMR (p (.int64 v))
    | .predInt64 p => boolToMR (p v)
    | .lit (.int64 n) => boolToMR (n = v)
    | .lit (.int n) => boolToMR (n = v)
    | _ => .invalidMatcherType
  | m, .str s =>
    match m with
    | .pred p => boolToMR (p (.str s))
    | .predStr p => boolToMR (p s)
    | .lit (.str s') => boolToMR (s' = s)
    | _ => .invalidMatcherType
  | m, .time t =>
    match m with
    | .pred p => boolToMR (p (.time t))
    | .predTime p => boolToMR (p t)
    | .lit (.time t') => boolToMR (t' = t)
    | _ => .invalidMatcherType
  | m, .uint64 u =>
    match m with
    | .pred p => boolToMR (p (.uint64 u))
    | .predUint64 p => boolToMR (p u)
    | .lit (.uint64 n) => boolToMR (n = u)
    | .lit (.int n) => boolToMR (intToUint64 n = u)
    | _ => .invalidMatcherType
  | _, .group _ => .panicked
  | m, .logValuer _ out => matchAttr m out

/-! ## Group path encoding (handler.go: `dotEncode`, `encgroups`) -/

/-- `strings.ReplaceAll(s, string(c), rep)` for a single-character pattern:
since the pattern has length one, occurrences cannot overlap and the
replacement is character by character. -/
def replaceAll1 (c : Char) (rep : GoStr) : GoStr → GoStr
  | [] => []
  | d :: rest => (if d = c then rep else [d]) ++ replaceAll1 c rep rest

/-- `dotEncode` (handler.go): double every backslash, then escape every dot
with a backslash. -/
def dotEncode (s : GoStr) : GoStr :=
  replaceAll1 '.' ['\\', '.'] (replaceAll1 '\\' ['\\', '\\'] s)

/-- `strings.Join(l, ".")`. -/
def joinDots : List GoStr → GoStr
  | [] => []
  | [s] => s
  | s :: rest => s ++ '.' :: joinDots rest

/-- `encgroups` (handler.go): dot-encode every group segment and the leaf
key and join the encoded segments with dots. -/
def encgroups (group : List GoStr) (key : GoStr) : GoStr :=
  joinDots (group.map dotEncode ++ [dotEncode key])

/-- The per-character expansion performed by `dotEncode`. -/
def escCh (c : Char) : GoStr :=
  if c = '\\' then ['\\', '\\'] else if c = '.' then ['\\', '.'] else [c]

/-- Concatenated per-character expansion of a whole segment. -/
def escSeg : GoStr → GoStr
  | [] => []
  | c :: rest => escCh c ++ escSeg rest

theorem replaceAll1_append (c : Char) (rep : GoStr) (s t : GoStr) :
    replaceAll1 c rep (s ++ t) = replaceAll1 c rep s ++ replaceAll1 c rep t := by
  induction s with
  | nil => rfl
  | cons d rest ih => simp [replaceAll1, ih]

/-- `dotEncode` acts segmentwise as the per-character expansion `escCh`:
the first pass introduces no dots into a backslash expansion, so composing
the two single-character replacements is the same as expanding each
character once. -/
theorem dotEncode_eq_escSeg (s : GoStr) : dotEncode s = escSeg s := by
  induction s with
  | nil => rfl
  | cons c rest ih =>
    unfold dotEncode at ih ⊢
    simp only [replaceAll1, replaceAll1_append]
    rw [ih]
    by_cases hb : c = '\\'
    · subst hb; simp [replaceAll1, escSeg, escCh]
    · by_cases hd : c = '.'
      · subst hd; simp [replaceAll1, escSeg, escCh]
      · simp [replaceAll1, escSeg, escCh, hb, hd]

/-- Decoder for the flattened key syntax: splits at unescaped dots,
unescaping backslash escapes, with `acc` holding the current segment in
reverse.  Only used to prove that the encoding is injective. -/
def decSegs : List Char → List Char → List GoStr
  | [], acc => [acc.reverse]
  | c :: rest, acc =>
    if c = '\\' then
      match rest with
      | [] => [acc.reverse]
      | d :: rest' => decSegs rest' (d :: acc)
    else if c = '.' then
      acc.reverse :: decSegs rest []
    else
      decSegs rest (c :: acc)

theorem decSegs_nil (acc : List Char) : decSegs [] acc = [acc.reverse] := rfl

theorem decSegs_esc (c : Char) (rest acc : List Char) :
    decSegs ('\\' :: c :: rest) acc = decSegs rest (c :: acc) := rfl

theorem decSegs_dot (rest acc : List Char) :
    decSegs ('.' :: rest) acc = acc.reverse :: decSegs rest [] := by
  conv_lhs => rw [decSegs.eq_def]
  dsimp only
  rw [if_neg (by decide : ('.' : Char) ≠ '\\'), if_pos rfl]

theorem decSegs_other (c : Char) (rest acc : List Char) (h1 : c ≠ '\\') (h2 : c ≠ '.') :
    decSegs (c :: rest) acc = decSegs rest (c :: acc) := by
  conv_lhs => rw [decSegs.eq_def]
  dsimp only
  rw [if_neg h1, if_neg h2]

theorem escCh_bs : escCh '\\' = ['\\', '\\'] := rfl

theorem escCh_dot : escCh '.' = ['\\', '.'] := by
  unfold escCh
  rw [if_neg (by decide : ('.' : Char) ≠ '\\'), if_pos rfl]

theorem escCh_other (c : Char) (h1 : c ≠ '\\') (h2 : c ≠ '.') : escCh c = [c] := by
  unfold escCh; rw [if_neg h1, if_neg h2]

/-- Running the decoder over one encoded segment: a following dot closes
the segment; end of input closes the last segment. -/
theorem decSegs_escSeg (s : GoStr) : ∀ acc : List Char,
    (∀ rest, decSegs (escSeg s ++ '.' :: rest) acc = (acc.reverse ++ s) :: decSegs rest []) ∧
    decSegs (escSeg s) acc = [acc.reverse ++ s] := by
  induction s with
  | nil =>
    intro acc
    exact ⟨fun rest => by simpa using decSegs_dot rest acc, by simp [escSeg, decSegs_nil]⟩
  | cons c s' ih =>
    intro acc
    by_cases hb : c = '\\'
    · subst hb
      constructor
      · intro r
        rw [show escSeg ('\\' :: s') ++ '.' :: r = '\\' :: '\\' :: (escSeg s' ++ '.' :: r) by
          simp [escSeg, escCh_bs]]
        rw [decSegs_esc, (ih ('\\' :: acc)).1 r]
        simp
      · rw [show escSeg ('\\' :: s') = '\\' :: '\\' :: escSeg s' by simp [escSeg, escCh_bs]]
        rw [decSegs_esc, (ih ('\\' :: acc)).2]
        simp
    · by_cases hd : c = '.'
      · subst hd
        constructor
        · intro r
          rw [show escSeg ('.' :: s') ++ '.' :: r = '\\' :: '.' :: (escSeg s' ++ '.' :: r) by
            simp [escSeg, escCh_dot]]
          rw [decSegs_esc, (ih ('.' :: acc)).1 r]
          simp
        · rw [show escSeg ('.' :: s') = '\\' :: '.' :: escSeg s' by simp [escSeg, escCh_dot]]
          rw [decSegs_esc, (ih ('.' :: acc)).2]
          simp
      · constructor
        · intro r
          rw [show escSeg (c :: s') ++ '.' :: r = c :: (escSeg s' ++ '.' :: r) by
            simp [escSeg, escCh_other c hb hd]]
          rw [decSegs_other c _ _ hb hd, (ih (c :: acc)).1 r]
          simp
        · rw [show escSeg (c :: s') = c :: escSeg s' by simp [escSeg, escCh_other c hb hd]]
          rw [decSegs_other c _ _ hb hd, (ih (c :: acc)).2]
          simp

/-- The decoder recovers the full segment list from a joined encoding. -/
theorem decSegs_joinDots (segs : List GoStr) (hne : segs ≠ []) :
    decSegs (joinDots (segs.map escSeg)) [] = segs := by
  induction segs with
  | nil => exact absurd rfl hne
  | cons s rest ih =>
    cases rest with
    | nil => simpa using (decSegs_escSeg s []).2
    | cons s2 r2 =>
      have hjoin : joinDots ((s :: s2 :: r2).map escSeg)
          = escSeg s ++ '.' :: joinDots ((s2 :: r2).map escSeg) := by
        simp [joinDots]
      rw [hjoin, (decSegs_escSeg s []).1]
      simpa using ih (by simp)

/-- The decoder inverts `encgroups`: the full segment list (group path plus
leaf key) is recovered from the flattened string. -/
theorem decSegs_encgroups (group : List GoStr) (key : GoStr) :
    decSegs (encgroups group key) [] = group ++ [key] := by
  have hfun : dotEncode = escSeg := funext dotEncode_eq_escSeg
  have h : encgroups group key = joinDots ((group ++ [key]).map escSeg) := by
    simp [encgroups, hfun]
  rw [h]
  exact decSegs_joinDots (group ++ [key]) (by simp)

/-- C2: the flattened-key encoder is injective: for every two
(groupPath, leafKey) pairs that are not equal as (sequence-of-strings,
string) pairs, `encgroups` produces distinct strings — escaping backslash
as double-backslash and dot as backslash-dot inside each segment, then
joining segments with an unescaped dot, never lets two different logical
paths collide. -/
theorem c2_encgroups_injective (group : List GoStr) (key : GoStr)
    (group' : List GoStr) (key' : GoStr)
    (hne : (group, key) ≠ (group', key')) :
    encgroups group key ≠ encgroups group' key' := by
  intro heq
  apply hne
  have hdec : group ++ [key] = group' ++ [key'] := by
    rw [← decSegs_encgroups group key, ← decSegs_encgroups group' key', heq]
  have hrev := congrArg List.reverse hdec
  simp only [List.reverse_append, List.reverse_cons, List.reverse_nil,
    List.nil_append, List.singleton_append, List.cons.injEq] at hrev
  exact Prod.ext (by simpa using hrev.2) hrev.1

/-- Witness for C2 at a concrete input: the path `["a"]` with key `"b"`
and the empty path with key `"a.b"` encode to different strings. -/
theorem c2_encgroups_injective_witness :
    ([gs "a"], gs "b") ≠ (([] : List GoStr), gs "a.b") ∧
    encgroups [gs "a"] (gs "b") ≠ encgroups [] (gs "a.b") :=
  ⟨by decide, c2_encgroups_injective [gs "a"] (gs "b") [] (gs "a.b") (by decide)⟩

/-! ## Log messages, attribute maps and the assertion engine
(handler.go: `LogMessage`; assertions.go: `Assert`, `Fail`, `AssertEmpty`,
`AssertMessage`, `AssertSomeMessage`, `AssertPrecise`, `AssertSomePrecise`,
`LogMessageMatch.Matches`). -/

/-- `LogMessage.Attrs`, a Go `map[string]slog.Value`, as an association
list in insertion order (Go map assignment replaces the binding of an
existing key in place). -/
abbrev AttrMap := List (GoStr × Value)

/-- Go map assignment `m[k] = v`: replace the existing binding or append a
new one. -/
def mapSet : AttrMap → GoStr → Value → AttrMap
  | [], k, v => [(k, v)]
  | (k', v') :: rest, k, v =>
    if k' = k then (k, v) :: rest else (k', v') :: mapSet rest k v

/-- Go map lookup `m[k]`. -/
def mapGet : AttrMap → GoStr → Option Value
  | [], _ => none
  | (k', v') :: rest, k => if k' = k then some v' else mapGet rest k

/-- `LogMessage` (handler.go): message, level, stack trace, flattened
attribute map and record time (carried as an instant). -/
structure LogMessage where
  message : GoStr
  level : Level
  stacktrace : GoStr
  attrs : AttrMap
  time : Int

/-- `LogMessageMatch` (assertions.go): the user-declared expectation. -/
structure LogMessageMatch where
  message : GoStr
  level : Level
  attrs : List (GoStr × Matcher)
  allAttrsMatch : Bool

/-- `LogMessageMatch.Matches` (assertions.go): message equality; level
equality unless `LevelDontCare`; every matcher's key must be present and
`matchAttr` must return a nil error; with `AllAttrsMatch`, the attribute
counts must agree too. -/
def Matches (lmm : LogMessageMatch) (lm : LogMessage) : Bool :=
  (lmm.message = lm.message) &&
  (lmm.level = levelDontCare || lmm.level = lm.level) &&
  (lmm.attrs.all fun p =>
    match mapGet lm.attrs p.1 with
    | none => false
    | some v => matchAttr p.2 v = .matched) &&
  (!lmm.allAttrsMatch || lmm.attrs.length = lm.attrs.length)

/-- The loop of `Handler.Assert` (assertions.go): scan the buffer once in
order, count matches and keep non-matching entries in order.  The
predicate passed in Go is a closure that may capture mutable state (see
`trueOnlyOnce`), so the loop is embedded with that state `σ` threaded
explicitly; the result is (match count, kept messages, final state). -/
def assertRunSt {σ : Type} (step : σ → LogMessage → Bool × σ) :
    List LogMessage → σ → Nat × List LogMessage × σ
  | [], s => (0, [], s)
  | lm :: rest, s =>
    let ms := step s lm
    let r := assertRunSt step rest ms.2
    if ms.1 then (r.1 + 1, r.2.1, r.2.2) else (r.1, lm :: r.2.1, r.2.2)

/-- `Handler.Assert` with a stateless predicate (the consume-all form used
by `AssertSomeMessage` / `AssertSomePrecise`). -/
def assertConsume (f : LogMessage → Bool) (buf : List LogMessage) :
    Nat × List LogMessage :=
  let r := assertRunSt (fun u lm => (f lm, u)) buf ()
  (r.1, r.2.1)

/-- One evaluation step of the closure built by `trueOnlyOnce`
(assertions.go): once it has returned true it keeps returning false
without consulting the wrapped predicate again. -/
def tooStep (f : LogMessage → Bool) (returnedTrue : Bool) (lm : LogMessage) :
    Bool × Bool :=
  if returnedTrue then (false, returnedTrue) else (f lm, f lm)

/-- `Handler.Assert` applied to `trueOnlyOnce f` (the stop-at-first form
used by `AssertMessage` / `AssertPrecise`). -/
def assertOnce (f : LogMessage → Bool) (buf : List LogMessage) :
    Nat × List LogMessage :=
  let r := assertRunSt (tooStep f) buf false
  (r.1, r.2.1)

/-- Result of one assertion call: count returned by `Assert`, the buffer
it leaves behind, and whether the call reached `Handler.Fail` (zero
matches). -/
structure AssertResult where
  removed : Nat
  buf : List LogMessage
  failed : Bool

/-- `Handler.AssertSomeMessage`: consume-all on message equality; fails
the test exactly when zero messages matched. -/
def assertSomeMessageM (msg : GoStr) (buf : List LogMessage) : AssertResult :=
  let r := assertConsume (fun lm => lm.message = msg) buf
  ⟨r.1, r.2, decide (r.1 = 0)⟩

/-- `Handler.AssertMessage`: stop-at-first on message equality; fails the
test exactly when zero messages matched. -/
def assertMessageM (msg : GoStr) (buf : List LogMessage) : AssertResult :=
  let r := assertOnce (fun lm => lm.message = msg) buf
  ⟨r.1, r.2, decide (r.1 = 0)⟩

/-- `Handler.AssertPrecise`: stop-at-first on `LogMessageMatch.Matches`. -/
def assertPreciseM (lmm : LogMessageMatch) (buf : List LogMessage) : AssertResult :=
  let r := assertOnce (Matches lmm) buf
  ⟨r.1, r.2, decide (r.1 = 0)⟩

/-- `Handler.AssertSomePrecise`: consume-all on
`LogMessageMatch.Matches`. -/
def assertSomePreciseM (lmm : LogMessageMatch) (buf : List LogMessage) : AssertResult :=
  let r := assertConsume (Matches lmm) buf
  ⟨r.1, r.2, decide (r.1 = 0)⟩

/-- `N` successive `AssertSomeMessage` calls with the same message:
(total count returned, final buffer, whether any call failed). -/
def repeatAssertSome (msg : GoStr) : Nat → List LogMessage → Nat × List LogMessage × Bool
  | 0, buf => (0, buf, false)
  | n + 1, buf =>
    let r := assertSomeMessageM msg buf
    let rest := repeatAssertSome msg n r.buf
    (r.removed + rest.1, rest.2.1, r.failed || rest.2.2)

/-- Go's `recover()` built-in: it returns the value passed to `panic` only
when the goroutine is panicking AND recover was called directly by a
deferred function; in every other call position it returns nil (Go
language specification, "Handling panics").  Panic values are carried
opaquely as naturals. -/
def recoverRes (panicking : Option Nat) (calledDirectlyByDeferred : Bool) : Option Nat :=
  if calledDirectlyByDeferred then panicking else none

/-- Observable outcome of an `AssertEmpty` call: return normally, dump
every remaining entry and `t.Fatalf` (test failed), or re-panic with the
recovered value. -/
inductive EmptyOutcome where
  | ok
  | failed (dumped : List LogMessage) (remaining : Nat)
  | repanic (v : Nat)

/-- Body of `Handler.Fail` (assertions.go) given what its `recover()` call
returned: on nil, print every remaining message and `t.Fatalf`; otherwise
re-panic with the recovered value. -/
def failM (buf : List LogMessage) (recovered : Option Nat) : EmptyOutcome :=
  match recovered with
  | none => .failed buf buf.length
  | some v => .repanic v

/-- `Handler.AssertEmpty` (assertions.go): return if the buffer is empty,
otherwise call `Handler.Fail`.  When `AssertEmpty` is the deferred
function (`defer handler.AssertEmpty()`), the `recover()` inside `Fail` is
NOT called directly by the deferred function — `Fail` is an ordinary call
made by `AssertEmpty` — so by the Go specification it returns nil even
while the goroutine is unwinding from a panic; hence the `false`. -/
def assertEmptyM (buf : List LogMessage) (panicking : Option Nat) : EmptyOutcome :=
  if buf.length = 0 then .ok
  else failM buf (recoverRes panicking false)

/-- AssertEmpty as claim C3 (and the comment inside `Handler.Fail`)
describes it: modelled from the spec: while the goroutine is unwinding
from a panic, a non-empty buffer re-propagates the original panic value
instead of failing the test. -/
def assertEmptyClaimed (buf : List LogMessage) (panicking : Option Nat) : EmptyOutcome :=
  if buf.length = 0 then .ok
  else
    match panicking with
    | some v => .repanic v
    | none => .failed buf buf.length

theorem assertRunSt_stateless (f : LogMessage → Bool) (buf : List LogMessage) :
    assertRunSt (fun u lm => (f lm, u)) buf ()
      = (buf.countP f, buf.filter (fun lm => !f lm), ()) := by
  induction buf with
  | nil => rfl
  | cons lm rest ih =>
    by_cases h : f lm <;>
      simp [assertRunSt, h, ih, List.countP_cons, List.filter_cons]

theorem assertConsume_spec (f : LogMessage → Bool) (buf : List LogMessage) :
    assertConsume f buf = (buf.countP f, buf.filter (fun lm => !f lm)) := by
  simp [assertConsume, assertRunSt_stateless]

theorem assertRunSt_too_true (f : LogMessage → Bool) (buf : List LogMessage) :
    assertRunSt (tooStep f) buf true = (0, buf, true) := by
  induction buf with
  | nil => rfl
  | cons lm rest ih => simp [assertRunSt, tooStep, ih]

theorem assertRunSt_too_false (f : LogMessage → Bool) (buf : List LogMessage) :
    assertRunSt (tooStep f) buf false
      = (if buf.any f then 1 else 0, buf.eraseP f, buf.any f) := by
  induction buf with
  | nil => rfl
  | cons lm rest ih =>
    by_cases h : f lm
    · simp [assertRunSt, tooStep, h, assertRunSt_too_true, List.eraseP_cons]
    · simp [assertRunSt, tooStep, h, ih, List.eraseP_cons]

theorem assertOnce_spec (f : LogMessage → Bool) (buf : List LogMessage) :
    assertOnce f buf = (if buf.any f then 1 else 0, buf.eraseP f) := by
  simp [assertOnce, assertRunSt_too_false]

/-- C5: a stop-at-first assertion (AssertMessage / AssertPrecise) on a
buffer containing any number of entries satisfying the predicate removes
exactly one entry — the first matching entry in buffer order (`eraseP`) —
leaves every other entry in the buffer in order, and fails the test if and
only if no entry matched. -/
theorem c5_stop_at_first (f : LogMessage → Bool) (msg : GoStr)
    (lmm : LogMessageMatch) (buf : List LogMessage) :
    assertOnce f buf = (if buf.any f then 1 else 0, buf.eraseP f) ∧
    assertMessageM msg buf =
      ⟨if buf.any (fun lm => lm.message = msg) then 1 else 0,
       buf.eraseP (fun lm => lm.message = msg),
       !buf.any (fun lm => lm.message = msg)⟩ ∧
    assertPreciseM lmm buf =
      ⟨if buf.any (Matches lmm) then 1 else 0,
       buf.eraseP (Matches lmm),
       !buf.any (Matches lmm)⟩ := by
  refine ⟨assertOnce_spec f buf, ?_, ?_⟩
  · unfold assertMessageM
    rw [assertOnce_spec]
    by_cases h : buf.any (fun lm => decide (lm.message = msg)) <;> simp [h]
  · unfold assertPreciseM
    rw [assertOnce_spec]
    by_cases h : buf.any (Matches lmm) <;> simp [h]

/-- C6: a consume-all assertion (AssertSomeMessage / AssertSomePrecise) on
a buffer containing exactly k entries satisfying its predicate removes all
k of them, returns k, leaves every non-matching entry in the buffer in
order, and fails the test if and only if k = 0; in particular three
identical recorded messages matched by one MatchSpec yield a return value
of 3 and an empty buffer. -/
theorem c6_consume_all (msg : GoStr) (lmm : LogMessageMatch)
    (buf : List LogMessage) :
    assertSomeMessageM msg buf =
      ⟨buf.countP (fun lm => lm.message = msg),
       buf.filter (fun lm => !(lm.message = msg : Bool)),
       decide (buf.countP (fun lm => lm.message = msg) = 0)⟩ ∧
    assertSomePreciseM lmm buf =
      ⟨buf.countP (Matches lmm),
       buf.filter (fun lm => !Matches lmm lm),
       decide (buf.countP (Matches lmm) = 0)⟩ ∧
    assertSomePreciseM
      ⟨gs "test warning", 4, [(gs "key", .lit (.str (gs "val")))], false⟩
      [⟨gs "test warning", 4, gs "", [(gs "key", .str (gs "val"))], 0⟩,
       ⟨gs "test warning", 4, gs "", [(gs "key", .str (gs "val"))], 0⟩,
       ⟨gs "test warning", 4, gs "", [(gs "key", .str (gs "val"))], 0⟩]
      = ⟨3, [], false⟩ := by
  refine ⟨?_, ?_, by rfl⟩
  · unfold assertSomeMessageM
    rw [assertConsume_spec]
  · unfold assertSomePreciseM
    rw [assertConsume_spec]

/-- C3 (code_bug evaluation): `AssertEmpty` on an empty buffer returns
without failing, and on a non-empty buffer dumps every remaining entry and
fails — but, because the `recover()` inside `Handler.Fail` is not called
directly by a deferred function when `AssertEmpty` is the deferred call,
it returns nil even during a panic unwind, so the embedded code also
fails (rather than re-panicking) while the goroutine is unwinding; the
final conjunct shows what the claimed behaviour would be instead. -/
theorem c3_unwind_divergence (lm : LogMessage) (buf : List LogMessage) (pv : Nat) :
    (assertEmptyM buf none = .ok ↔ buf = []) ∧
    (assertEmptyM buf (some pv) = .ok ↔ buf = []) ∧
    (assertEmptyM (lm :: buf) none = .failed (lm :: buf) (buf.length + 1)) ∧
    (assertEmptyM (lm :: buf) (some pv) = .failed (lm :: buf) (buf.length + 1)) ∧
    (assertEmptyClaimed (lm :: buf) (some pv) = .repanic pv) := by
  refine ⟨?_, ?_, ?_, ?_, ?_⟩
  · cases buf <;> simp [assertEmptyM, failM, recoverRes]
  · cases buf <;> simp [assertEmptyM, failM, recoverRes]
  · simp [assertEmptyM, failM, recoverRes]
  · simp [assertEmptyM, failM, recoverRes]
  · simp [assertEmptyClaimed]

theorem repeatAssertSome_no_match (msg : GoStr) (n : Nat) (buf : List LogMessage)
    (h : buf.countP (fun lm => lm.message = msg) = 0) :
    repeatAssertSome msg n buf = (0, buf, decide (1 ≤ n)) := by
  induction n with
  | zero => rfl
  | succ n ih =>
    have hfil : buf.filter (fun lm => !(lm.message = msg : Bool)) = buf := by
      rw [List.filter_eq_self]
      intro a ha
      have := (List.countP_eq_zero.mp h) a ha
      simpa using this
    have hr : assertSomeMessageM msg buf = ⟨0, buf, true⟩ := by
      unfold assertSomeMessageM
      rw [assertConsume_spec]
      simp [h, hfil]
    simp [repeatAssertSome, hr, ih, Nat.le_add_left]

/-- C7 (amended): a consume-all assertion removes, at its first call, all
entries with the asserted message (returning that count and failing
exactly when it is zero); repeating the call leaves the buffer unchanged,
removes nothing further, and every repetition after the first fails —
so N ≥ 1 calls remove `occurrences` entries in total, not
min(N, occurrences). -/
theorem c7_repeat_consume_all (msg : GoStr) (buf : List LogMessage) (n : Nat) :
    (repeatAssertSome msg (n + 1) buf).1
        = buf.countP (fun lm => lm.message = msg) ∧
    (repeatAssertSome msg (n + 1) buf).2.1
        = buf.filter (fun lm => !(lm.message = msg : Bool)) ∧
    (repeatAssertSome msg (n + 1) buf).2.2
        = (decide (buf.countP (fun lm => lm.message = msg) = 0) || decide (1 ≤ n)) := by
  have hr : assertSomeMessageM msg buf =
      ⟨buf.countP (fun lm => lm.message = msg),
       buf.filter (fun lm => !(lm.message = msg : Bool)),
       decide (buf.countP (fun lm => lm.message = msg) = 0)⟩ := by
    unfold assertSomeMessageM
    rw [assertConsume_spec]
  have hzero : (buf.filter (fun lm => !(lm.message = msg : Bool))).countP
      (fun lm => lm.message = msg) = 0 := by
    rw [List.countP_eq_zero]
    intro a ha
    have := (List.mem_filter.mp ha).2
    simpa using this
  have htail := repeatAssertSome_no_match msg n _ hzero
  refine ⟨?_, ?_, ?_⟩ <;> simp [repeatAssertSome, hr, htail]

/-- C7 (counterexample): with three buffered copies of message "a", a
single consume-all assertion (N = 1) removes and returns 3, while the
claim predicts min(1, 3) = 1. -/
theorem c7_counterexample :
    (repeatAssertSome (gs "a") 1
        ([⟨gs "a", 4, gs "", [], 0⟩, ⟨gs "a", 4, gs "", [], 0⟩,
          ⟨gs "a", 4, gs "", [], 0⟩] : List LogMessage)).1 = 3 ∧
    min 1 (List.countP (fun lm : LogMessage => lm.message = gs "a")
        ([⟨gs "a", 4, gs "", [], 0⟩, ⟨gs "a", 4, gs "", [], 0⟩,
          ⟨gs "a", 4, gs "", [], 0⟩] : List LogMessage)) = 1 ∧
    (3 : Nat) ≠ 1 := by
  refine ⟨rfl, by decide, by decide⟩

theorem f64ofNat_small (m : Nat) (h : m ≤ 2 ^ 53) : f64ofNat m = m := by
  unfold f64ofNat
  rw [if_pos h]

theorem f64ofInt_small (n : Int) (h1 : -(2 ^ 53) ≤ n) (h2 : n ≤ 2 ^ 53) :
    f64ofInt n = n := by
  have hp : (2 : Int) ^ 53 = 9007199254740992 := by norm_num
  have hpn : (2 : Nat) ^ 53 = 9007199254740992 := by norm_num
  rw [hp] at h1 h2
  unfold f64ofInt
  by_cases hn : n < 0
  · rw [if_pos hn, f64ofNat_small _ (by rw [hpn]; omega)]
    omega
  · rw [if_neg hn, f64ofNat_small _ (by rw [hpn]; omega)]
    omega

/-- C4 (amended): for each of the numeric value kinds, a plain int literal
matcher is accepted and compared after the Go conversion to the stored
kind: for int64 the conversion is value-preserving, so matching is exactly
mathematical equality; for float64 the int is converted to the nearest
double (`f64ofInt`), which coincides with mathematical equality for
magnitudes up to 2^53; for uint64 the int is reduced modulo 2^64, so a
non-negative matcher matches exactly the mathematically equal stored
value, while a negative matcher n matches exactly the stored value
n + 2^64 (it does NOT fail against every stored uint64). -/
theorem c4_numeric_widening (n : Int) :
    (∀ v : Int, matchAttr (.lit (.int n)) (.int64 v)
        = if n = v then .matched else .notMatched) ∧
    (∀ q : Rat, matchAttr (.lit (.int n)) (.float64 q)
        = if (f64ofInt n : Rat) = q then .matched else .notMatched) ∧
    (∀ u : Nat, matchAttr (.lit (.int n)) (.uint64 u)
        = if intToUint64 n = u then .matched else .notMatched) ∧
    (-(2 ^ 53) ≤ n → n ≤ 2 ^ 53 →
      ∀ q : Rat, (matchAttr (.lit (.int n)) (.float64 q) = .matched ↔ (n : Rat) = q)) ∧
    (0 ≤ n → n < 2 ^ 63 →
      ∀ u : Nat, (matchAttr (.lit (.int n)) (.uint64 u) = .matched ↔ n = (u : Int))) ∧
    (-(2 ^ 63) ≤ n → n < 0 →
      ∀ u : Nat, u < 2 ^ 64 →
        (matchAttr (.lit (.int n)) (.uint64 u) = .matched ↔ (u : Int) = n + 2 ^ 64)) := by
  have hint64 : ∀ v : Int, matchAttr (.lit (.int n)) (.int64 v)
      = if n = v then .matched else .notMatched := by
    intro v
    by_cases h : n = v <;> simp [matchAttr, boolToMR, h]
  have hfloat : ∀ q : Rat, matchAttr (.lit (.int n)) (.float64 q)
      = if (f64ofInt n : Rat) = q then .matched else .notMatched := by
    intro q
    by_cases h : (f64ofInt n : Rat) = q <;> simp [matchAttr, boolToMR, h]
  have huint : ∀ u : Nat, matchAttr (.lit (.int n)) (.uint64 u)
      = if intToUint64 n = u then .matched else .notMatched := by
    intro u
    by_cases h : intToUint64 n = u <;> simp [matchAttr, boolToMR, h]
  refine ⟨hint64, hfloat, huint, ?_, ?_, ?_⟩
  · intro h1 h2 q
    rw [hfloat q, f64ofInt_small n h1 h2]
    constructor
    · intro h
      by_contra hne
      rw [if_neg hne] at h
      exact MatchResult.noConfusion h
    · intro h
      rw [if_pos h]
  · intro h0 h63 u
    rw [huint u]
    have hmod : n % (2 ^ 64 : Int) = n := by
      rw [Int.emod_eq_of_lt h0 (by norm_num at h63 ⊢; omega)]
    have hval : intToUint64 n = n.toNat := by
      rw [intToUint64, hmod]
    rw [hval]
    constructor
    · intro h
      by_contra hne
      have : ¬(n.toNat = u) := by omega
      rw [if_neg this] at h
      exact MatchResult.noConfusion h
    · intro h
      rw [if_pos (by omega)]
  · intro hlo hneg u hu
    rw [huint u]
    have h64 : (2 : Int) ^ 64 = 18446744073709551616 := by norm_num
    have h63 : (2 : Int) ^ 63 = 9223372036854775808 := by norm_num
    have hun : (2 : Nat) ^ 64 = 18446744073709551616 := by norm_num
    have hmod : n % (2 ^ 64 : Int) = n + 2 ^ 64 := by
      have hlo' : -9223372036854775808 ≤ n := h63 ▸ hlo
      rw [h64]
      omega
    have hval : intToUint64 n = (n + 2 ^ 64).toNat := by
      rw [intToUint64, hmod]
    rw [hval]
    constructor
    · intro h
      by_contra hne
      have : ¬((n + 2 ^ 64).toNat = u) := by
        rw [h64] at hne ⊢
        omega
      rw [if_neg this] at h
      exact MatchResult.noConfusion h
    · intro h
      refine if_pos ?_
      rw [h64] at h ⊢
      omega

/-- C4 (counterexample): the negative int matcher -1 matches the stored
uint64 value 2^64 - 1 (Go converts the matcher with uint64(-1) =
18446744073709551615), although the two are mathematically unequal — the
claim says every negative int matcher fails against every stored uint64
value. -/
theorem c4_counterexample :
    matchAttr (.lit (.int (-1))) (.uint64 18446744073709551615) = .matched ∧
    (-1 : Int) ≠ ((18446744073709551615 : Nat) : Int) := by
  exact ⟨by decide, by decide⟩

/-- Witness for C4 (amended), applying the negative-matcher clause at
n = -1 against the stored value 2^64 - 1. -/
theorem c4_numeric_widening_witness :
    (-(2 ^ 63) : Int) ≤ -1 ∧ (-1 : Int) < 0 ∧ (18446744073709551615 : Nat) < 2 ^ 64 ∧
    (matchAttr (.lit (.int (-1))) (.uint64 18446744073709551615) = .matched ↔
      ((18446744073709551615 : Nat) : Int) = -1 + 2 ^ 64) :=
  ⟨by norm_num, by norm_num, by norm_num,
   (c4_numeric_widening (-1)).2.2.2.2.2 (by norm_num) (by norm_num)
     18446744073709551615 (by norm_num)⟩

/-- Kinds that can occur in a stored, flattened attribute map: `Handle`
resolves every value and recurses into groups before storing, so neither
`KindGroup` nor `KindLogValuer` values are ever stored. -/
def storableKind : Value → Bool
  | .group _ => false
  | .logValuer _ _ => false
  | _ => true

/-- The accepted matcher shapes per stored value kind, read off the case
arms of the kind switch in `matchAttr` (assertions.go): the
`func(slog.Value) bool` predicate is accepted at every kind; each kind
accepts its own typed predicate and native literal; `KindFloat64`,
`KindInt64` and `KindUint64` additionally accept a plain int literal; and
for `KindAny` the `case any:` arm accepts every remaining non-nil matcher
value (comparing with `reflect.DeepEqual`).  A matcher implementing
`slog.LogValuer` never reaches the switch and is listed as not accepted
here — it is not one of the three documented shapes. -/
def acceptedShape : Matcher → Value → Bool
  | .pred _, _ => true
  | .goNil, _ => false
  | .logValuer _, _ => false
  | _, .any _ => true
  | .predBool _, .bool _ => true
  | .lit (.bool _), .bool _ => true
  | .predDuration _, .duration _ => true
  | .lit (.duration _), .duration _ => true
  | .predFloat _, .float64 _ => true
  | .lit (.float64 _), .float64 _ => true
  | .lit (.int _), .float64 _ => true
  | .predInt64 _, .int64 _ => true
  | .lit (.int64 _), .int64 _ => true
  | .lit (.int _), .int64 _ => true
  | .predStr _, .str _ => true
  | .lit (.str _), .str _ => true
  | .predTime _, .time _ => true
  | .lit (.time _), .time _ => true
  | .predUint64 _, .uint64 _ => true
  | .lit (.uint64 _), .uint64 _ => true
  | .lit (.int _), .uint64 _ => true
  | _, _ => false

/-- C8 (amended): for every storable value kind, a matcher that does not
implement `slog.LogValuer` and whose type is none of the accepted shapes
for that kind yields the distinct `invalidMatcherType` outcome, which
differs from `notMatched` and never counts as a match. -/
theorem c8_invalid_matcher_type (m : Matcher) (v : Value)
    (hlv : ∀ out, m ≠ .logValuer out)
    (hst : storableKind v = true)
    (hacc : acceptedShape m v = false) :
    matchAttr m v = .invalidMatcherType ∧
    (MatchResult.invalidMatcherType ≠ .notMatched) ∧
    (MatchResult.invalidMatcherType ≠ .matched) := by
  refine ⟨?_, by decide, by decide⟩
  cases v <;> cases m <;>
    first
    | exact absurd rfl (hlv _)
    | (rename_i g; cases g <;> simp_all [acceptedShape, matchAttr, storableKind])
    | simp_all [acceptedShape, matchAttr, storableKind]

/-- C8 (counterexample): a matcher implementing `slog.LogValuer` is none
of the three accepted shapes for a stored bool, yet `matchAttr` returns
`notMatched` (comparing via `LogValue()`/`Equal`), not
`invalidMatcherType`. -/
theorem c8_counterexample :
    acceptedShape (.logValuer (.str (gs "x"))) (.bool true) = false ∧
    matchAttr (.logValuer (.str (gs "x"))) (.bool true) = .notMatched ∧
    MatchResult.notMatched ≠ .invalidMatcherType := by
  exact ⟨rfl, by decide, by decide⟩

/-- Witness for C8 (amended): a string-typed predicate matcher against a
stored bool is rejected as an invalid matcher type. -/
theorem c8_invalid_matcher_type_witness :
    matchAttr (.predStr fun _ => true) (.bool true) = .invalidMatcherType ∧
    (MatchResult.invalidMatcherType ≠ .notMatched) ∧
    (MatchResult.invalidMatcherType ≠ .matched) :=
  c8_invalid_matcher_type (.predStr fun _ => true) (.bool true)
    (fun _ h => Matcher.noConfusion h) rfl rfl

/-- C10: for every stored value of every kind, a matcher that implements
`slog.LogValuer` is resolved via `LogValue()` and compared to the stored
value with `slog.Value.Equal`, matching if and only if they are equal —
this happens before any of the three documented matcher shapes is
considered, so such a matcher is never treated as a predicate or a plain
literal. -/
theorem c10_logvaluer_matcher (out v : Value) :
    matchAttr (.logValuer out) v
      = if Value.equalV out v then .matched else .notMatched := by
  cases v <;> simp [matchAttr, boolToMR]

/-! ## The attribute tree and Handle (handler.go: `groupedAttrs`,
`Handler.WithAttrs`, `Handler.WithGroup`, `Handler.Handle`). -/

/-- A `slog.Attr`: key and value. -/
abbrev SAttr := GoStr × Value

mutual
/-- `groupedAttrs` (handler.go): the attrs declared at this group level
plus the child groups.  The Go `map[string]*groupedAttrs` is embedded as
an association forest in insertion order (Go map iteration order is
unspecified; every theorem below is insensitive to sibling order). -/
inductive GATree where
  | mk (attrs : List SAttr) (groups : GAForest)

/-- The child map of a `groupedAttrs` node. -/
inductive GAForest where
  | nil
  | cons (key : GoStr) (t : GATree) (rest : GAForest)
end

/-- Map lookup in the child forest. -/
def GAForest.lookupG : GAForest → GoStr → Option GATree
  | .nil, _ => none
  | .cons k t rest, g => if k = g then some t else rest.lookupG g

/-- Replace the binding of key `g` (the subtree mutation `target =
newTarget` performs in place in Go). -/
def GAForest.replaceG : GAForest → GoStr → GATree → GAForest
  | .nil, _, _ => .nil
  | .cons k t rest, g, t' =>
    if k = g then .cons k t' rest else .cons k t (rest.replaceG g t')

/-- Insert a new binding (`target.groups[group] = &groupedAttrs{...}`). -/
def GAForest.pushG : GAForest → GoStr → GATree → GAForest
  | .nil, g, t => .cons g t .nil
  | .cons k t0 rest, g, t => .cons k t0 (rest.pushG g t)

/-- `groupedAttrs.set` (handler.go): walk (creating missing nodes) along
the group path and append the new attrs to the node at its end. -/
def GATree.set : List GoStr → List SAttr → GATree → GATree
  | [], new, .mk as gsf => .mk (as ++ new) gsf
  | g :: rest, new, .mk as gsf =>
    match gsf.lookupG g with
    | some child => .mk as (gsf.replaceG g (GATree.set rest new child))
    | none => .mk as (gsf.pushG g (GATree.set rest new (.mk [] .nil)))

mutual
/-- The traversal order of `groupedAttrs.runOnRecursive` (handler.go) as a
list of (group path, attr) visits: own attrs first, then each child
subtree under the extended path. -/
def GATree.flatten : List GoStr → GATree → List (List GoStr × SAttr)
  | cur, .mk as gsf => as.map (fun a => (cur, a)) ++ GAForest.flattenF cur gsf

/-- Forest part of `GATree.flatten`. -/
def GAForest.flattenF : List GoStr → GAForest → List (List GoStr × SAttr)
  | _, .nil => []
  | cur, .cons g t rest => GATree.flatten (cur ++ [g]) t ++ GAForest.flattenF cur rest
end

mutual
/-- The closure `f` inside `Handler.Handle` (handler.go), applied to one
attr: resolve the value; a group recurses into its members under the
extended path; any other kind is stored at the flattened key (Go map
assignment, last write winning). -/
def fAttr (m : AttrMap) (group : List GoStr) (key : GoStr) : Value → AttrMap
  | .logValuer _ out => fAttr m group key out
  | .group attrs => fAttrList m (group ++ [key]) attrs
  | v => mapSet m (encgroups group key) v

/-- `fAttr` folded over the members of a group value. -/
def fAttrList (m : AttrMap) (group : List GoStr) : AttrList → AttrMap
  | .nil => m
  | .cons k v rest => fAttrList (fAttr m group k v) group rest
end

/-- `fAttr` folded over a list of per-call attrs (the `record.Attrs`
loop in `Handler.Handle`). -/
def fAttrs (m : AttrMap) (group : List GoStr) : List SAttr → AttrMap
  | [] => m
  | a :: rest => fAttrs (fAttr m group a.1 a.2) group rest

mutual
/-- `groupedAttrs.runOnRecursive` (handler.go) with the always-true
closure `f` from `Handle`, accumulating into the attr map. -/
def runOnT (m : AttrMap) (cur : List GoStr) : GATree → AttrMap
  | .mk as gsf => runOnF (fAttrs m cur as) cur gsf

/-- Forest part of `runOnT`. -/
def runOnF (m : AttrMap) (cur : List GoStr) : GAForest → AttrMap
  | .nil => m
  | .cons g t rest => runOnF (runOnT m (cur ++ [g]) t) cur rest
end

/-- The attribute state of a `Handler` (handler.go): its current group
path and its attribute tree.  `Handler.child` deep-copies the tree
(`clone`); in this pure embedding a copy is the value itself, and claim C9
treats the aliasing content of `clone` against an explicit heap. -/
structure HState where
  currentGroup : List GoStr
  attrs : GATree

/-- `Handler.WithAttrs`: the child records the attrs under the parent's
current group path. -/
def HState.withAttrsOp (h : HState) (attrs : List SAttr) : HState :=
  ⟨h.currentGroup, GATree.set h.currentGroup attrs h.attrs⟩

/-- `Handler.WithGroup`: the child extends the current group path. -/
def HState.withGroupOp (h : HState) (g : GoStr) : HState :=
  ⟨h.currentGroup ++ [g], h.attrs⟩

/-- One derivation step in a chain of derived handlers. -/
inductive HOp where
  | withAttrs (attrs : List SAttr)
  | withGroup (g : GoStr)

/-- Apply one derivation step. -/
def applyOp (h : HState) : HOp → HState
  | .withAttrs l => h.withAttrsOp l
  | .withGroup g => h.withGroupOp g

/-- Apply a chain of derivation steps in order. -/
def applyOps (h : HState) : List HOp → HState
  | [] => h
  | op :: rest => applyOps (applyOp h op) rest

/-- The root handler produced by `New`: empty group path, empty tree. -/
def initH : HState := ⟨[], .mk [] .nil⟩

/-- `Handler.Handle` (handler.go), restricted to the attribute map it
stores in the recorded `LogMessage`: first the per-call attrs are
flattened under the handler's current group, then the handler's attribute
tree is traversed (`h.attrs.runOn(f)`), each write keyed by `encgroups`
of the path in effect at declaration time. -/
def handleModel (h : HState) (callAttrs : List SAttr) : AttrMap :=
  runOnT (fAttrs [] h.currentGroup callAttrs) [] h.attrs

/-- The (path, attr) pairs declared by the `withAttrs` steps of a chain,
each tagged with the group path in effect at its declaration. -/
def declared : List HOp → List GoStr → List (List GoStr × SAttr)
  | [], _ => []
  | .withAttrs l :: rest, cur => l.map (fun a => (cur, a)) ++ declared rest cur
  | .withGroup g :: rest, cur => declared rest (cur ++ [g])

/-- The group names of a chain, in order: the group path of the deepest
descendant. -/
def groupsOf : List HOp → List GoStr
  | [] => []
  | .withAttrs _ :: rest => groupsOf rest
  | .withGroup g :: rest => g :: groupsOf rest

/-- Whether a value resolves to a non-group (leaf) kind, i.e. is stored
under exactly its own flattened key. -/
def isLeafRes (v : Value) : Bool :=
  match v.resolve with
  | .group _ => false
  | _ => true

mutual
/-- The (flattened key, resolved value) writes `fAttr` performs, in
order. -/
def attrWrites (group : List GoStr) (key : GoStr) : Value → List (GoStr × Value)
  | .logValuer _ out => attrWrites group key out
  | .group attrs => attrsWritesL (group ++ [key]) attrs
  | v => [(encgroups group key, v)]

/-- Writes of the members of a group value. -/
def attrsWritesL (group : List GoStr) : AttrList → List (GoStr × Value)
  | .nil => []
  | .cons k v rest => attrWrites group k v ++ attrsWritesL group rest
end

/-- Writes of a list of per-call attrs. -/
def attrsWrites (group : List GoStr) : List SAttr → List (GoStr × Value)
  | [] => []
  | a :: rest => attrWrites group a.1 a.2 ++ attrsWrites group rest

/-- Writes of a list of traversal visits. -/
def entriesWrites : List (List GoStr × SAttr) → List (GoStr × Value)
  | [] => []
  | (p, a) :: rest => attrWrites p a.1 a.2 ++ entriesWrites rest

/-- All writes one `Handle` call performs on the stored attr map, in
order: per-call attrs first, then the inherited tree traversal. -/
def allWrites (h : HState) (callAttrs : List SAttr) : List (GoStr × Value) :=
  attrsWrites h.currentGroup callAttrs ++ entriesWrites (GATree.flatten [] h.attrs)

/-- Number of writes touching the key `k`. -/
def keyCount (W : List (GoStr × Value)) (k : GoStr) : Nat :=
  W.countP (fun e => e.1 = k)

/-- A list of writes applied to an attr map in order. -/
def foldWrites (m : AttrMap) : List (GoStr × Value) → AttrMap
  | [] => m
  | e :: rest => foldWrites (mapSet m e.1 e.2) rest

theorem foldWrites_append (m : AttrMap) (W1 W2 : List (GoStr × Value)) :
    foldWrites m (W1 ++ W2) = foldWrites (foldWrites m W1) W2 := by
  induction W1 generalizing m with
  | nil => rfl
  | cons e rest ih => simp [foldWrites, ih]

mutual
theorem fAttr_eq : ∀ (m : AttrMap) (group : List GoStr) (key : GoStr) (v : Value),
    fAttr m group key v = foldWrites m (attrWrites group key v)
  | m, group, key, .logValuer _ out => fAttr_eq m group key out
  | m, group, key, .group attrs => fAttrList_eq m (group ++ [key]) attrs
  | _, _, _, .any _ => rfl
  | _, _, _, .bool _ => rfl
  | _, _, _, .duration _ => rfl
  | _, _, _, .float64 _ => rfl
  | _, _, _, .int64 _ => rfl
  | _, _, _, .str _ => rfl
  | _, _, _, .time _ => rfl
  | _, _, _, .uint64 _ => rfl

theorem fAttrList_eq : ∀ (m : AttrMap) (group : List GoStr) (l : AttrList),
    fAttrList m group l = foldWrites m (attrsWritesL group l)
  | _, _, .nil => rfl
  | m, group, .cons k v rest => by
    rw [show fAttrList m group (.cons k v rest) = fAttrList (fAttr m group k v) group rest
      from rfl]
    rw [show attrsWritesL group (.cons k v rest)
      = attrWrites group k v ++ attrsWritesL group rest from rfl]
    rw [foldWrites_append, ← fAttr_eq m group k v]
    exact fAttrList_eq (fAttr m group k v) group rest
end

theorem fAttrs_eq (m : AttrMap) (group : List GoStr) (l : List SAttr) :
    fAttrs m group l = foldWrites m (attrsWrites group l) := by
  induction l generalizing m with
  | nil => rfl
  | cons a rest ih =>
    rw [show fAttrs m group (a :: rest) = fAttrs (fAttr m group a.1 a.2) group rest from rfl]
    rw [show attrsWrites group (a :: rest)
      = attrWrites group a.1 a.2 ++ attrsWrites group rest from rfl]
    rw [foldWrites_append, ← fAttr_eq]
    exact ih (fAttr m group a.1 a.2)

theorem entriesWrites_append (l1 l2 : List (List GoStr × SAttr)) :
    entriesWrites (l1 ++ l2) = entriesWrites l1 ++ entriesWrites l2 := by
  induction l1 with
  | nil => rfl
  | cons e rest ih => simp [entriesWrites, ih, List.append_assoc]

theorem entriesWrites_map (cur : List GoStr) (as : List SAttr) :
    entriesWrites (as.map fun a => (cur, a)) = attrsWrites cur as := by
  induction as with
  | nil => rfl
  | cons a rest ih => simp [entriesWrites, attrsWrites, ih]

mutual
theorem runOnT_eq : ∀ (m : AttrMap) (cur : List GoStr) (t : GATree),
    runOnT m cur t = foldWrites m (entriesWrites (GATree.flatten cur t))
  | m, cur, .mk as gsf => by
    rw [show runOnT m cur (.mk as gsf) = runOnF (fAttrs m cur as) cur gsf from rfl]
    rw [show GATree.flatten cur (.mk as gsf)
      = (as.map fun a => (cur, a)) ++ GAForest.flattenF cur gsf from rfl]
    rw [entriesWrites_append, foldWrites_append, entriesWrites_map, ← fAttrs_eq]
    exact runOnF_eq (fAttrs m cur as) cur gsf

theorem runOnF_eq : ∀ (m : AttrMap) (cur : List GoStr) (f : GAForest),
    runOnF m cur f = foldWrites m (entriesWrites (GAForest.flattenF cur f))
  | _, _, .nil => rfl
  | m, cur, .cons g t rest => by
    rw [show runOnF m cur (.cons g t rest) = runOnF (runOnT m (cur ++ [g]) t) cur rest
      from rfl]
    rw [show GAForest.flattenF cur (.cons g t rest)
      = GATree.flatten (cur ++ [g]) t ++ GAForest.flattenF cur rest from rfl]
    rw [entriesWrites_append, foldWrites_append, ← runOnT_eq]
    exact runOnF_eq (runOnT m (cur ++ [g]) t) cur rest
end

theorem handleModel_eq (h : HState) (callAttrs : List SAttr) :
    handleModel h callAttrs = foldWrites [] (allWrites h callAttrs) := by
  rw [handleModel, allWrites, foldWrites_append, ← fAttrs_eq, runOnT_eq]

theorem mapGet_mapSet_same (m : AttrMap) (k : GoStr) (v : Value) :
    mapGet (mapSet m k v) k = some v := by
  induction m with
  | nil => simp [mapSet, mapGet]
  | cons e rest ih =>
    by_cases h : e.1 = k
    · simp [mapSet, mapGet, h]
    · simp [mapSet, mapGet, h, ih]

theorem mapGet_mapSet_other (m : AttrMap) (k' k : GoStr) (v : Value) (h : k' ≠ k) :
    mapGet (mapSet m k' v) k = mapGet m k := by
  induction m with
  | nil => simp [mapSet, mapGet, h]
  | cons e rest ih =>
    by_cases he : e.1 = k'
    · simp [mapSet, mapGet, he, h]
    · simp only [mapSet, if_neg he]
      by_cases hek : e.1 = k
      · simp [mapGet, hek]
      · simp [mapGet, hek, ih]

instance : Inhabited Value := ⟨.bool true⟩

theorem keyCount_cons (e : GoStr × Value) (rest : List (GoStr × Value)) (k : GoStr) :
    keyCount (e :: rest) k = keyCount rest k + (if e.1 = k then 1 else 0) := by
  simp [keyCount, List.countP_cons]

theorem mapGet_foldWrites_absent (W : List (GoStr × Value)) (k : GoStr) :
    ∀ m, keyCount W k = 0 → mapGet (foldWrites m W) k = mapGet m k := by
  induction W with
  | nil => intro m _; rfl
  | cons e rest ih =>
    intro m h
    rw [keyCount_cons] at h
    have h1 : ¬(e.1 = k) := by
      intro hk
      rw [if_pos hk] at h
      omega
    have h2 : keyCount rest k = 0 := by
      rw [if_neg h1] at h
      omega
    rw [show foldWrites m (e :: rest) = foldWrites (mapSet m e.1 e.2) rest from rfl]
    rw [ih _ h2, mapGet_mapSet_other _ _ _ _ h1]

theorem mapGet_foldWrites_unique (W : List (GoStr × Value)) (k : GoStr) (v : Value) :
    ∀ m, (k, v) ∈ W → keyCount W k = 1 → mapGet (foldWrites m W) k = some v := by
  induction W with
  | nil => intro m hmem _; cases hmem
  | cons e rest ih =>
    intro m hmem hcnt
    rw [keyCount_cons] at hcnt
    rw [show foldWrites m (e :: rest) = foldWrites (mapSet m e.1 e.2) rest from rfl]
    by_cases h1 : e.1 = k
    · have hrest : keyCount rest k = 0 := by
        rw [if_pos h1] at hcnt
        omega
      have hv : e = (k, v) := by
        cases hmem with
        | head => rfl
        | tail _ hm =>
          exfalso
          have hpos : 0 < keyCount rest k := by
            rw [keyCount, List.countP_pos_iff]
            exact ⟨(k, v), hm, by simp⟩
          omega
      rw [mapGet_foldWrites_absent _ _ _ hrest, hv, mapGet_mapSet_same]
    · have hv : (k, v) ∈ rest := by
        cases hmem with
        | head => exact absurd rfl h1
        | tail _ hm => exact hm
      have hrest : keyCount rest k = 1 := by
        rw [if_neg h1] at hcnt
        omega
      exact ih _ hv hrest

theorem flattenF_pushG : ∀ (cur : List GoStr) (f : GAForest) (g : GoStr) (t : GATree),
    GAForest.flattenF cur (f.pushG g t)
      = GAForest.flattenF cur f ++ GATree.flatten (cur ++ [g]) t
  | cur, .nil, g, t => by
    rw [show GAForest.pushG .nil g t = .cons g t .nil from rfl]
    rw [show GAForest.flattenF cur (.cons g t .nil)
      = GATree.flatten (cur ++ [g]) t ++ GAForest.flattenF cur .nil from rfl]
    rw [show GAForest.flattenF cur .nil = [] from rfl]
    simp
  | cur, .cons k t0 rest, g, t => by
    rw [show GAForest.pushG (.cons k t0 rest) g t = .cons k t0 (rest.pushG g t) from rfl]
    rw [show GAForest.flattenF cur (.cons k t0 (rest.pushG g t))
      = GATree.flatten (cur ++ [k]) t0 ++ GAForest.flattenF cur (rest.pushG g t) from rfl]
    rw [flattenF_pushG cur rest g t]
    rw [show GAForest.flattenF cur (.cons k t0 rest)
      = GATree.flatten (cur ++ [k]) t0 ++ GAForest.flattenF cur rest from rfl]
    rw [List.append_assoc]

theorem mem_flattenF_replaceG : ∀ (cur : List GoStr) (f : GAForest) (g : GoStr)
    (t' : GATree) (x : List GoStr × SAttr),
    f.lookupG g ≠ none → x ∈ GATree.flatten (cur ++ [g]) t' →
    x ∈ GAForest.flattenF cur (f.replaceG g t')
  | cur, .nil, g, t', x => fun h _ => absurd rfl h
  | cur, .cons k t0 rest, g, t', x => by
    intro hl hx
    by_cases hk : k = g
    · subst hk
      rw [show (GAForest.cons k t0 rest).replaceG k t' = .cons k t' rest from by
        rw [GAForest.replaceG, if_pos rfl]]
      rw [show GAForest.flattenF cur (.cons k t' rest)
        = GATree.flatten (cur ++ [k]) t' ++ GAForest.flattenF cur rest from rfl]
      exact List.mem_append_left _ hx
    · rw [show (GAForest.cons k t0 rest).replaceG g t' = .cons k t0 (rest.replaceG g t') from by
        rw [GAForest.replaceG, if_neg hk]]
      rw [show GAForest.flattenF cur (.cons k t0 (rest.replaceG g t'))
        = GATree.flatten (cur ++ [k]) t0 ++ GAForest.flattenF cur (rest.replaceG g t') from rfl]
      have hl' : rest.lookupG g ≠ none := by
        rw [show GAForest.lookupG (.cons k t0 rest) g
          = if k = g then some t0 else rest.lookupG g from rfl, if_neg hk] at hl
        exact hl
      exact List.mem_append_right _ (mem_flattenF_replaceG cur rest g t' x hl' hx)

theorem mem_flattenF_replaceG_old : ∀ (cur : List GoStr) (f : GAForest) (g : GoStr)
    (child t' : GATree) (x : List GoStr × SAttr),
    f.lookupG g = some child →
    (∀ y, y ∈ GATree.flatten (cur ++ [g]) child → y ∈ GATree.flatten (cur ++ [g]) t') →
    x ∈ GAForest.flattenF cur f → x ∈ GAForest.flattenF cur (f.replaceG g t')
  | cur, .nil, g, child, t', x => fun h _ _ => by cases h
  | cur, .cons k t0 rest, g, child, t', x => by
    intro hl hpres hx
    by_cases hk : k = g
    · subst hk
      have hchild : t0 = child := by
        rw [show GAForest.lookupG (.cons k t0 rest) k
          = if k = k then some t0 else rest.lookupG k from rfl, if_pos rfl] at hl
        exact Option.some.inj hl
      subst hchild
      rw [show (GAForest.cons k t0 rest).replaceG k t' = .cons k t' rest from by
        rw [GAForest.replaceG, if_pos rfl]]
      rw [show GAForest.flattenF cur (.cons k t0 rest)
        = GATree.flatten (cur ++ [k]) t0 ++ GAForest.flattenF cur rest from rfl] at hx
      rw [show GAForest.flattenF cur (.cons k t' rest)
        = GATree.flatten (cur ++ [k]) t' ++ GAForest.flattenF cur rest from rfl]
      rcases List.mem_append.mp hx with hx1 | hx2
      · exact List.mem_append_left _ (hpres x hx1)
      · exact List.mem_append_right _ hx2
    · rw [show (GAForest.cons k t0 rest).replaceG g t' = .cons k t0 (rest.replaceG g t') from by
        rw [GAForest.replaceG, if_neg hk]]
      rw [show GAForest.flattenF cur (.cons k t0 rest)
        = GATree.flatten (cur ++ [k]) t0 ++ GAForest.flattenF cur rest from rfl] at hx
      rw [show GAForest.flattenF cur (.cons k t0 (rest.replaceG g t'))
        = GATree.flatten (cur ++ [k]) t0 ++ GAForest.flattenF cur (rest.replaceG g t') from rfl]
      have hl' : rest.lookupG g = some child := by
        rw [show GAForest.lookupG (.cons k t0 rest) g
          = if k = g then some t0 else rest.lookupG g from rfl, if_neg hk] at hl
        exact hl
      rcases List.mem_append.mp hx with hx1 | hx2
      · exact List.mem_append_left _ hx1
      · exact List.mem_append_right _
          (mem_flattenF_replaceG_old cur rest g child t' x hl' hpres hx2)

theorem mem_flatten_set : ∀ (path : List GoStr) (new : List SAttr) (cur : List GoStr)
    (t : GATree) (x : List GoStr × SAttr),
    x ∈ GATree.flatten cur t → x ∈ GATree.flatten cur (GATree.set path new t)
  | [], new, cur, .mk as gsf, x => by
    intro hx
    rw [show GATree.set [] new (.mk as gsf) = .mk (as ++ new) gsf from rfl]
    rw [show GATree.flatten cur (.mk as gsf)
      = (as.map fun a => (cur, a)) ++ GAForest.flattenF cur gsf from rfl] at hx
    rw [show GATree.flatten cur (.mk (as ++ new) gsf)
      = ((as ++ new).map fun a => (cur, a)) ++ GAForest.flattenF cur gsf from rfl]
    rcases List.mem_append.mp hx with hx1 | hx2
    · refine List.mem_append_left _ ?_
      rw [List.map_append]
      exact List.mem_append_left _ hx1
    · exact List.mem_append_right _ hx2
  | g :: rest, new, cur, .mk as gsf, x => by
    intro hx
    rw [show GATree.flatten cur (.mk as gsf)
      = (as.map fun a => (cur, a)) ++ GAForest.flattenF cur gsf from rfl] at hx
    cases hl : gsf.lookupG g with
    | some child =>
      rw [GATree.set, hl]
      rw [show GATree.flatten cur (.mk as (gsf.replaceG g (GATree.set rest new child)))
        = (as.map fun a => (cur, a))
          ++ GAForest.flattenF cur (gsf.replaceG g (GATree.set rest new child)) from rfl]
      rcases List.mem_append.mp hx with hx1 | hx2
      · exact List.mem_append_left _ hx1
      · refine List.mem_append_right _ ?_
        exact mem_flattenF_replaceG_old cur gsf g child _ x hl
          (fun y hy => mem_flatten_set rest new (cur ++ [g]) child y hy) hx2
    | none =>
      rw [GATree.set, hl]
      rw [show GATree.flatten cur (.mk as (gsf.pushG g (GATree.set rest new (.mk [] .nil))))
        = (as.map fun a => (cur, a))
          ++ GAForest.flattenF cur (gsf.pushG g (GATree.set rest new (.mk [] .nil))) from rfl]
      rcases List.mem_append.mp hx with hx1 | hx2
      · exact List.mem_append_left _ hx1
      · refine List.mem_append_right _ ?_
        rw [flattenF_pushG]
        exact List.mem_append_left _ hx2

theorem mem_flatten_set_new : ∀ (path : List GoStr) (new : List SAttr) (cur : List GoStr)
    (t : GATree) (b : SAttr), b ∈ new →
    (cur ++ path, b) ∈ GATree.flatten cur (GATree.set path new t)
  | [], new, cur, .mk as gsf, b => by
    intro hb
    rw [show GATree.set [] new (.mk as gsf) = .mk (as ++ new) gsf from rfl]
    rw [show GATree.flatten cur (.mk (as ++ new) gsf)
      = ((as ++ new).map fun a => (cur, a)) ++ GAForest.flattenF cur gsf from rfl]
    refine List.mem_append_left _ ?_
    simp only [List.append_nil]
    exact List.mem_map.mpr ⟨b, List.mem_append_right _ hb, rfl⟩
  | g :: rest, new, cur, .mk as gsf, b => by
    intro hb
    have hpath : cur ++ g :: rest = (cur ++ [g]) ++ rest := by simp
    rw [hpath]
    cases hl : gsf.lookupG g with
    | some child =>
      rw [GATree.set, hl]
      rw [show GATree.flatten cur (.mk as (gsf.replaceG g (GATree.set rest new child)))
        = (as.map fun a => (cur, a))
          ++ GAForest.flattenF cur (gsf.replaceG g (GATree.set rest new child)) from rfl]
      refine List.mem_append_right _ ?_
      refine mem_flattenF_replaceG cur gsf g _ _ (by rw [hl]; exact fun h => Option.noConfusion h) ?_
      exact mem_flatten_set_new rest new (cur ++ [g]) child b hb
    | none =>
      rw [GATree.set, hl]
      rw [show GATree.flatten cur (.mk as (gsf.pushG g (GATree.set rest new (.mk [] .nil))))
        = (as.map fun a => (cur, a))
          ++ GAForest.flattenF cur (gsf.pushG g (GATree.set rest new (.mk [] .nil))) from rfl]
      refine List.mem_append_right _ ?_
      rw [flattenF_pushG]
      exact List.mem_append_right _ (mem_flatten_set_new rest new (cur ++ [g]) (.mk [] .nil) b hb)

theorem mem_flatten_applyOps : ∀ (ops : List HOp) (c : List GoStr) (t : GATree)
    (x : List GoStr × SAttr),
    x ∈ GATree.flatten [] t → x ∈ GATree.flatten [] (applyOps ⟨c, t⟩ ops).attrs
  | [], _, _, _ => fun hx => hx
  | .withAttrs l :: rest, c, t, x => fun hx =>
    mem_flatten_applyOps rest c _ x (mem_flatten_set c l [] t x hx)
  | .withGroup g :: rest, c, t, x => fun hx => mem_flatten_applyOps rest (c ++ [g]) t x hx

theorem mem_declared_flatten : ∀ (ops : List HOp) (cur : List GoStr) (t : GATree)
    (p : List GoStr) (a : SAttr), (p, a) ∈ declared ops cur →
    (p, a) ∈ GATree.flatten [] (applyOps ⟨cur, t⟩ ops).attrs
  | [], _, _, _, _ => fun h => by cases h
  | .withAttrs l :: rest, cur, t, p, a => by
    intro hmem
    rw [show declared (.withAttrs l :: rest) cur
      = (l.map fun a => (cur, a)) ++ declared rest cur from rfl] at hmem
    rcases List.mem_append.mp hmem with h1 | h2
    · obtain ⟨b, hb, heq⟩ := List.mem_map.mp h1
      obtain ⟨hp, ha⟩ := Prod.mk.injEq .. ▸ heq
      subst hp
      subst ha
      refine mem_flatten_applyOps rest cur _ _ ?_
      have := mem_flatten_set_new cur l [] t b hb
      simpa using this
    · exact mem_declared_flatten rest cur (GATree.set cur l t) p a h2
  | .withGroup g :: rest, cur, t, p, a => fun hmem =>
    mem_declared_flatten rest (cur ++ [g]) t p a hmem

theorem attrWrites_leaf : ∀ (group : List GoStr) (key : GoStr) (v : Value),
    isLeafRes v = true → attrWrites group key v = [(encgroups group key, v.resolve)]
  | group, key, .logValuer _ out => fun h => attrWrites_leaf group key out h
  | group, key, .group attrs => fun h => by
    exfalso
    rw [show isLeafRes (.group attrs) = false from rfl] at h
    exact Bool.noConfusion h
  | _, _, .any _ => fun _ => rfl
  | _, _, .bool _ => fun _ => rfl
  | _, _, .duration _ => fun _ => rfl
  | _, _, .float64 _ => fun _ => rfl
  | _, _, .int64 _ => fun _ => rfl
  | _, _, .str _ => fun _ => rfl
  | _, _, .time _ => fun _ => rfl
  | _, _, .uint64 _ => fun _ => rfl

theorem mem_attrsWrites : ∀ (group : List GoStr) (l : List SAttr) (a : SAttr), a ∈ l →
    ∀ x, x ∈ attrWrites group a.1 a.2 → x ∈ attrsWrites group l
  | _, [], _ => fun h => by cases h
  | group, b :: rest, a => by
    intro hmem x hx
    rw [show attrsWrites group (b :: rest)
      = attrWrites group b.1 b.2 ++ attrsWrites group rest from rfl]
    cases hmem with
    | head => exact List.mem_append_left _ hx
    | tail _ hm => exact List.mem_append_right _ (mem_attrsWrites group rest a hm x hx)

theorem mem_entriesWrites : ∀ (entries : List (List GoStr × SAttr)) (p : List GoStr)
    (a : SAttr), (p, a) ∈ entries →
    ∀ x, x ∈ attrWrites p a.1 a.2 → x ∈ entriesWrites entries
  | [], _, _ => fun h => by cases h
  | (q, b) :: rest, p, a => by
    intro hmem x hx
    rw [show entriesWrites ((q, b) :: rest)
      = attrWrites q b.1 b.2 ++ entriesWrites rest from rfl]
    cases hmem with
    | head => exact List.mem_append_left _ hx
    | tail _ hm => exact List.mem_append_right _ (mem_entriesWrites rest p a hm x hx)

theorem currentGroup_applyOps : ∀ (ops : List HOp) (c : List GoStr) (t : GATree),
    (applyOps ⟨c, t⟩ ops).currentGroup = c ++ groupsOf ops
  | [], c, t => by simp [applyOps, groupsOf]
  | .withAttrs l :: rest, c, t => by
    rw [show applyOps ⟨c, t⟩ (.withAttrs l :: rest)
      = applyOps ⟨c, GATree.set c l t⟩ rest from rfl]
    rw [currentGroup_applyOps rest c (GATree.set c l t)]
    rfl
  | .withGroup g :: rest, c, t => by
    rw [show applyOps ⟨c, t⟩ (.withGroup g :: rest)
      = applyOps ⟨c ++ [g], t⟩ rest from rfl]
    rw [currentGroup_applyOps rest (c ++ [g]) t]
    simp [groupsOf]

/-- C1: for every chain of derived handlers built by repeated
WithGroup/WithAttrs operations, every log event recorded through Handle on
the deepest descendant contains, in its flattened attribute map, every
attribute declared by WithAttrs at every ancestor level — provided the
attribute's value resolves to a leaf kind and its flattened key is written
exactly once — keyed by the flattened encoding of the full group path in
effect when the attribute was declared, with its resolved value; and, in
addition, the per-call attributes under the full group path of the chain. -/
theorem c1_inherited_attrs (ops : List HOp) (callAttrs : List SAttr) :
    (∀ (p : List GoStr) (a : SAttr), (p, a) ∈ declared ops [] → isLeafRes a.2 = true →
      keyCount (allWrites (applyOps initH ops) callAttrs) (encgroups p a.1) = 1 →
      mapGet (handleModel (applyOps initH ops) callAttrs) (encgroups p a.1)
        = some a.2.resolve) ∧
    (∀ a : SAttr, a ∈ callAttrs → isLeafRes a.2 = true →
      keyCount (allWrites (applyOps initH ops) callAttrs) (encgroups (groupsOf ops) a.1) = 1 →
      mapGet (handleModel (applyOps initH ops) callAttrs) (encgroups (groupsOf ops) a.1)
        = some a.2.resolve) := by
  constructor
  · intro p a hdecl hleaf huniq
    rw [handleModel_eq]
    refine mapGet_foldWrites_unique _ _ _ _ ?_ huniq
    have hflat : (p, a) ∈ GATree.flatten [] (applyOps initH ops).attrs :=
      mem_declared_flatten ops [] (.mk [] .nil) p a hdecl
    have hw : (encgroups p a.1, a.2.resolve) ∈ attrWrites p a.1 a.2 := by
      rw [attrWrites_leaf _ _ _ hleaf]
      exact List.mem_singleton.mpr rfl
    exact List.mem_append_right _
      (mem_entriesWrites (GATree.flatten [] (applyOps initH ops).attrs) p a hflat _ hw)
  · intro a hc hleaf huniq
    rw [handleModel_eq]
    refine mapGet_foldWrites_unique _ _ _ _ ?_ huniq
    have hcg : (applyOps initH ops).currentGroup = groupsOf ops := by
      have := currentGroup_applyOps ops [] (.mk [] .nil)
      simpa using this
    have hw : (encgroups (groupsOf ops) a.1, a.2.resolve)
        ∈ attrWrites (groupsOf ops) a.1 a.2 := by
      rw [attrWrites_leaf _ _ _ hleaf]
      exact List.mem_singleton.mpr rfl
    rw [allWrites]
    refine List.mem_append_left _ ?_
    rw [hcg]
    exact mem_attrsWrites (groupsOf ops) callAttrs a hc _ hw

/-- Witness for C1 at the concrete chain
WithAttrs(constant=h) ∘ WithGroup(g) ∘ WithAttrs(k=v) with one per-call
attr s=200: the inherited attr declared under path [g] appears at key
"g.k", and the per-call attr at key "g.s". -/
theorem c1_inherited_attrs_witness :
    mapGet (handleModel (applyOps initH
        [.withAttrs [(gs "c", .str (gs "h"))], .withGroup (gs "g"),
         .withAttrs [(gs "k", .str (gs "v"))]])
        [(gs "s", .int64 200)])
      (encgroups [gs "g"] (gs "k")) = some ((Value.str (gs "v")).resolve) ∧
    mapGet (handleModel (applyOps initH
        [.withAttrs [(gs "c", .str (gs "h"))], .withGroup (gs "g"),
         .withAttrs [(gs "k", .str (gs "v"))]])
        [(gs "s", .int64 200)])
      (encgroups (groupsOf
        [.withAttrs [(gs "c", .str (gs "h"))], .withGroup (gs "g"),
         .withAttrs [(gs "k", .str (gs "v"))]]) (gs "s"))
      = some ((Value.int64 200).resolve) :=
  ⟨(c1_inherited_attrs
      [.withAttrs [(gs "c", .str (gs "h"))], .withGroup (gs "g"),
       .withAttrs [(gs "k", .str (gs "v"))]]
      [(gs "s", .int64 200)]).1
    [gs "g"] (gs "k", .str (gs "v"))
    (List.Mem.tail _ (List.Mem.head _)) rfl rfl,
   (c1_inherited_attrs
      [.withAttrs [(gs "c", .str (gs "h"))], .withGroup (gs "g"),
       .withAttrs [(gs "k", .str (gs "v"))]]
      [(gs "s", .int64 200)]).2
    (gs "s", .int64 200) (List.Mem.head _) rfl rfl⟩

/-! ## Heap model of `groupedAttrs.clone` and `groupedAttrs.set`
(handler.go).  `clone` and `set` mutate a pointer graph in Go; to settle
the aliasing content of claim C9 they are embedded against an explicit
heap of nodes addressed by naturals, with fuel making the recursions
total (`none` = out of fuel / nil dereference, which never happens for
the well-formed heaps the theorems quantify over). -/

/-- One `groupedAttrs` record on the heap: its own attrs and its child
map, children referenced by address. -/
structure HNode where
  attrs : List SAttr
  groups : List (GoStr × Nat)

/-- The heap: memory and allocation frontier (fresh addresses are
`next`, `next + 1`, ...). -/
structure Heap where
  mem : Nat → Option HNode
  next : Nat

/-- Overwrite the node at address `a` (a Go field/map mutation through a
pointer). -/
def Heap.write (h : Heap) (a : Nat) (n : HNode) : Heap :=
  ⟨fun b => if b = a then some n else h.mem b, h.next⟩

/-- Allocate a fresh node (`&groupedAttrs{...}` in Go). -/
def Heap.alloc (h : Heap) (n : HNode) : Heap × Nat :=
  (⟨fun b => if b = h.next then some n else h.mem b, h.next + 1⟩, h.next)

/-- Child-map lookup by group name. -/
def lookupA : List (GoStr × Nat) → GoStr → Option Nat
  | [], _ => none
  | (k, b) :: rest, g => if k = g then some b else lookupA rest g

mutual
/-- `groupedAttrs.clone` (handler.go): allocate a fresh node carrying a
copy of the attrs slice, with every child cloned recursively into fresh
nodes. -/
def cloneNode (h : Heap) (a : Nat) : Nat → Option (Heap × Nat)
  | 0 => none
  | fuel + 1 =>
    match h.mem a with
    | none => none
    | some nd =>
      match cloneChildren h nd.groups fuel with
      | none => none
      | some (h1, gs1) => some (Heap.alloc h1 ⟨nd.attrs, gs1⟩)

/-- The `for group, child := range ga.groups` loop of `clone`. -/
def cloneChildren (h : Heap) (l : List (GoStr × Nat)) :
    Nat → Option (Heap × List (GoStr × Nat))
  | 0 => none
  | fuel + 1 =>
    match l with
    | [] => some (h, [])
    | (g, b) :: rest =>
      match cloneNode h b fuel with
      | none => none
      | some (h1, b') =>
        match cloneChildren h1 rest fuel with
        | none => none
        | some (h2, gs2) => some (h2, (g, b') :: gs2)
end

/-- `groupedAttrs.set` (handler.go) against the heap: walk the group
path from the node at `a`, allocating missing children (and writing the
new binding into the parent node's map), then append the new attrs to
the node at the end of the path. -/
def setNode (h : Heap) (a : Nat) (path : List GoStr) (new : List SAttr) :
    Nat → Option Heap
  | 0 => none
  | fuel + 1 =>
    match h.mem a with
    | none => none
    | some nd =>
      match path with
      | [] => some (h.write a ⟨nd.attrs ++ new, nd.groups⟩)
      | g :: rest =>
        match lookupA nd.groups g with
        | some b => setNode h b rest new fuel
        | none =>
          let al := h.alloc ⟨[], []⟩
          setNode (al.1.write a ⟨nd.attrs, nd.groups ++ [(g, al.2)]⟩)
            al.2 rest new fuel

/-- The pure tree read back from the heap — the observable attribute
state of a handler. -/
inductive PTree where
  | mk (attrs : List SAttr) (groups : List (GoStr × PTree))

mutual
/-- Read the tree rooted at address `a`. -/
def readTree (h : Heap) (a : Nat) : Nat → Option PTree
  | 0 => none
  | fuel + 1 =>
    match h.mem a with
    | none => none
    | some nd =>
      match readChildren h nd.groups fuel with
      | none => none
      | some gs => some (.mk nd.attrs gs)

/-- Read a child list. -/
def readChildren (h : Heap) (l : List (GoStr × Nat)) :
    Nat → Option (List (GoStr × PTree))
  | 0 => none
  | fuel + 1 =>
    match l with
    | [] => some []
    | (g, b) :: rest =>
      match readTree h b fuel with
      | none => none
      | some t =>
        match readChildren h rest fuel with
        | none => none
        | some gs => some ((g, t) :: gs)
end

/-- Heap well-formedness: nothing is allocated at or above the frontier,
and every stored child address is below the frontier. -/
def Valid (h : Heap) : Prop :=
  (∀ a, h.next ≤ a → h.mem a = none) ∧
  (∀ a nd, h.mem a = some nd → ∀ p ∈ nd.groups, p.2 < h.next)

/-- Every node at address ≥ N has all its child addresses ≥ N: the
region above N is closed, so walks started inside it never reach below
N. -/
def HighClosed (h : Heap) (N : Nat) : Prop :=
  ∀ a nd, N ≤ a → h.mem a = some nd → ∀ p ∈ nd.groups, N ≤ p.2

theorem read_agree : ∀ (fuel : Nat) (h h2 : Heap) (N : Nat),
    (∀ b, b < N → h2.mem b = h.mem b) →
    (∀ b nd, b < N → h.mem b = some nd → ∀ p ∈ nd.groups, p.2 < N) →
    (∀ a, a < N → readTree h2 a fuel = readTree h a fuel) ∧
    (∀ l, (∀ p ∈ l, p.2 < N) → readChildren h2 l fuel = readChildren h l fuel)
  | 0, _, _, _, _, _ => ⟨fun _ _ => rfl, fun _ _ => rfl⟩
  | fuel + 1, h, h2, N, hagree, hclosed => by
    have ih := read_agree fuel h h2 N hagree hclosed
    constructor
    · intro a ha
      rw [show readTree h2 a (fuel + 1)
        = (match h2.mem a with
           | none => none
           | some nd =>
             match readChildren h2 nd.groups fuel with
             | none => none
             | some gs => some (.mk nd.attrs gs)) from rfl]
      rw [show readTree h a (fuel + 1)
        = (match h.mem a with
           | none => none
           | some nd =>
             match readChildren h nd.groups fuel with
             | none => none
             | some gs => some (.mk nd.attrs gs)) from rfl]
      rw [hagree a ha]
      cases hm : h.mem a with
      | none => rfl
      | some nd =>
        dsimp only
        rw [ih.2 nd.groups (hclosed a nd ha hm)]
    · intro l hl
      cases l with
      | nil => rfl
      | cons p rest =>
        obtain ⟨g, b⟩ := p
        rw [show readChildren h2 ((g, b) :: rest) (fuel + 1)
          = (match readTree h2 b fuel with
             | none => none
             | some t =>
               match readChildren h2 rest fuel with
               | none => none
               | some gs => some ((g, t) :: gs)) from rfl]
        rw [show readChildren h ((g, b) :: rest) (fuel + 1)
          = (match readTree h b fuel with
             | none => none
             | some t =>
               match readChildren h rest fuel with
               | none => none
               | some gs => some ((g, t) :: gs)) from rfl]
        rw [ih.1 b (hl (g, b) (List.mem_cons_self _ _))]
        rw [ih.2 rest (fun p hp => hl p (List.mem_cons_of_mem _ hp))]

mutual
theorem cloneNode_props : ∀ (fuel : Nat) (h : Heap) (a : Nat) (h' : Heap) (c : Nat),
    Valid h → cloneNode h a fuel = some (h', c) →
    (∀ b, b < h.next → h'.mem b = h.mem b) ∧
    h.next ≤ h'.next ∧ h.next ≤ c ∧ c < h'.next ∧ Valid h' ∧ HighClosed h' h.next
  | 0, _, _, _, _ => fun _ hc => Option.noConfusion hc
  | fuel + 1, h, a, h', c => by
    intro hv hc
    rw [show cloneNode h a (fuel + 1)
      = (match h.mem a with
         | none => none
         | some nd =>
           match cloneChildren h nd.groups fuel with
           | none => none
           | some (h1, gs1) => some (Heap.alloc h1 ⟨nd.attrs, gs1⟩)) from rfl] at hc
    cases hm : h.mem a with
    | none => rw [hm] at hc; exact Option.noConfusion hc
    | some nd =>
      rw [hm] at hc
      dsimp only at hc
      cases hcc : cloneChildren h nd.groups fuel with
      | none => rw [hcc] at hc; exact Option.noConfusion hc
      | some pr =>
        obtain ⟨h1, gs1⟩ := pr
        rw [hcc] at hc
        dsimp only at hc
        have heq := Option.some.inj hc
        have hh' : h' = (Heap.alloc h1 ⟨nd.attrs, gs1⟩).1 :=
          (congrArg Prod.fst heq).symm
        have hcq : c = h1.next := (congrArg Prod.snd heq).symm
        obtain ⟨hlow1, hnext1, hvalid1, hhc1, hbounds1⟩ :=
          cloneChildren_props fuel h nd.groups h1 gs1 hv hcc
        subst hh'
        subst hcq
        refine ⟨?_, ?_, ?_, ?_, ⟨?_, ?_⟩, ?_⟩
        · intro b hb
          have hbne : b ≠ h1.next := by omega
          rw [show (Heap.alloc h1 ⟨nd.attrs, gs1⟩).1.mem b
            = if b = h1.next then some ⟨nd.attrs, gs1⟩ else h1.mem b from rfl]
          rw [if_neg hbne]
          exact hlow1 b hb
        · rw [show (Heap.alloc h1 ⟨nd.attrs, gs1⟩).1.next = h1.next + 1 from rfl]
          omega
        · omega
        · rw [show (Heap.alloc h1 ⟨nd.attrs, gs1⟩).1.next = h1.next + 1 from rfl]
          omega
        · intro b hb
          rw [show (Heap.alloc h1 ⟨nd.attrs, gs1⟩).1.next = h1.next + 1 from rfl] at hb
          rw [show (Heap.alloc h1 ⟨nd.attrs, gs1⟩).1.mem b
            = if b = h1.next then some ⟨nd.attrs, gs1⟩ else h1.mem b from rfl]
          rw [if_neg (by omega)]
          exact hvalid1.1 b (by omega)
        · intro b nd' hmem p hp
          rw [show (Heap.alloc h1 ⟨nd.attrs, gs1⟩).1.mem b
            = if b = h1.next then some ⟨nd.attrs, gs1⟩ else h1.mem b from rfl] at hmem
          rw [show (Heap.alloc h1 ⟨nd.attrs, gs1⟩).1.next = h1.next + 1 from rfl]
          by_cases hb : b = h1.next
          · rw [if_pos hb] at hmem
            have hnd' : nd' = ⟨nd.attrs, gs1⟩ := (Option.some.inj hmem).symm
            subst hnd'
            have := (hbounds1 p hp).2
            omega
          · rw [if_neg hb] at hmem
            have := hvalid1.2 b nd' hmem p hp
            omega
        · intro b nd' hb hmem p hp
          rw [show (Heap.alloc h1 ⟨nd.attrs, gs1⟩).1.mem b
            = if b = h1.next then some ⟨nd.attrs, gs1⟩ else h1.mem b from rfl] at hmem
          by_cases hbn : b = h1.next
          · rw [if_pos hbn] at hmem
            have hnd' : nd' = ⟨nd.attrs, gs1⟩ := (Option.some.inj hmem).symm
            subst hnd'
            exact (hbounds1 p hp).1
          · rw [if_neg hbn] at hmem
            exact hhc1 b nd' hb hmem p hp

theorem cloneChildren_props : ∀ (fuel : Nat) (h : Heap) (l : List (GoStr × Nat))
    (h' : Heap) (gs' : List (GoStr × Nat)),
    Valid h → cloneChildren h l fuel = some (h', gs') →
    (∀ b, b < h.next → h'.mem b = h.mem b) ∧
    h.next ≤ h'.next ∧ Valid h' ∧ HighClosed h' h.next ∧
    (∀ p ∈ gs', h.next ≤ p.2 ∧ p.2 < h'.next)
  | 0, _, _, _, _ => fun _ hc => Option.noConfusion hc
  | fuel + 1, h, l, h', gs' => by
    intro hv hc
    cases l with
    | nil =>
      rw [show cloneChildren h [] (fuel + 1) = some (h, []) from rfl] at hc
      have heq := Option.some.inj hc
      have hh' : h' = h := (congrArg Prod.fst heq).symm
      have hgs : gs' = [] := (congrArg Prod.snd heq).symm
      subst hh'
      subst hgs
      refine ⟨fun _ _ => rfl, Nat.le_refl _, hv, ?_, fun _ hp => by cases hp⟩
      intro b nd hb hmem
      rw [hv.1 b hb] at hmem
      exact Option.noConfusion hmem
    | cons p rest =>
      obtain ⟨g, b0⟩ := p
      rw [show cloneChildren h ((g, b0) :: rest) (fuel + 1)
        = (match cloneNode h b0 fuel with
           | none => none
           | some (h1, b') =>
             match cloneChildren h1 rest fuel with
             | none => none
             | some (h2, gs2) => some (h2, (g, b') :: gs2)) from rfl] at hc
      cases hcn : cloneNode h b0 fuel with
      | none => rw [hcn] at hc; exact Option.noConfusion hc
      | some pr1 =>
        obtain ⟨h1, b'⟩ := pr1
        rw [hcn] at hc
        dsimp only at hc
        cases hcc2 : cloneChildren h1 rest fuel with
        | none => rw [hcc2] at hc; exact Option.noConfusion hc
        | some pr2 =>
          obtain ⟨h2, gs2⟩ := pr2
          rw [hcc2] at hc
          dsimp only at hc
          have heq := Option.some.inj hc
          have hh' : h' = h2 := (congrArg Prod.fst heq).symm
          have hgs : gs' = (g, b') :: gs2 := (congrArg Prod.snd heq).symm
          obtain ⟨hlowN, hnextN, hbN0, hbN1, hvalidN, hhcN⟩ :=
            cloneNode_props fuel h b0 h1 b' hv hcn
          obtain ⟨hlowC, hnextC, hvalidC, hhcC, hboundsC⟩ :=
            cloneChildren_props fuel h1 rest h2 gs2 hvalidN hcc2
          subst hh'
          subst hgs
          refine ⟨?_, by omega, hvalidC, ?_, ?_⟩
          · intro b hb
            rw [hlowC b (by omega), hlowN b hb]
          · intro b nd hb hmem p hp
            by_cases hb1 : h1.next ≤ b
            · have := hhcC b nd hb1 hmem p hp
              omega
            · rw [hlowC b (by omega)] at hmem
              exact hhcN b nd hb hmem p hp
          · intro p hp
            cases hp with
            | head => exact ⟨hbN0, by omega⟩
            | tail _ hm =>
              have := hboundsC p hm
              omega

end

theorem lookupA_mem : ∀ (l : List (GoStr × Nat)) (g : GoStr) (b : Nat),
    lookupA l g = some b → (g, b) ∈ l
  | [], _, _ => fun h => Option.noConfusion h
  | (k, b0) :: rest, g, b => by
    intro h
    rw [show lookupA ((k, b0) :: rest) g
      = if k = g then some b0 else lookupA rest g from rfl] at h
    by_cases hk : k = g
    · rw [if_pos hk] at h
      subst hk
      rw [← Option.some.inj h]
      exact List.mem_cons_self _ _
    · rw [if_neg hk] at h
      exact List.mem_cons_of_mem _ (lookupA_mem rest g b h)

theorem setNode_props : ∀ (fuel : Nat) (h : Heap) (a : Nat) (path : List GoStr)
    (new : List SAttr) (h2 : Heap) (N : Nat),
    HighClosed h N → N ≤ h.next → N ≤ a →
    setNode h a path new fuel = some h2 →
    (∀ b, b < N → h2.mem b = h.mem b) ∧ N ≤ h2.next
  | 0, _, _, _, _, _, _ => fun _ _ _ hs => Option.noConfusion hs
  | fuel + 1, h, a, path, new, h2, N => by
    intro hhc hnext ha hs
    cases path with
    | nil =>
      rw [show setNode h a [] new (fuel + 1)
        = (match h.mem a with
           | none => none
           | some nd => some (h.write a ⟨nd.attrs ++ new, nd.groups⟩)) from rfl] at hs
      cases hm : h.mem a with
      | none => rw [hm] at hs; exact Option.noConfusion hs
      | some nd =>
        rw [hm] at hs
        dsimp only at hs
        have hh2 : h.write a ⟨nd.attrs ++ new, nd.groups⟩ = h2 := Option.some.inj hs
        subst hh2
        constructor
        · intro b hb
          rw [show (h.write a ⟨nd.attrs ++ new, nd.groups⟩).mem b
            = if b = a then some ⟨nd.attrs ++ new, nd.groups⟩ else h.mem b from rfl]
          rw [if_neg (by omega)]
        · exact hnext
    | cons g rest =>
      rw [show setNode h a (g :: rest) new (fuel + 1)
        = (match h.mem a with
           | none => none
           | some nd =>
             match lookupA nd.groups g with
             | some b => setNode h b rest new fuel
             | none =>
               setNode ((h.alloc ⟨[], []⟩).1.write a
                   ⟨nd.attrs, nd.groups ++ [(g, (h.alloc ⟨[], []⟩).2)]⟩)
                 (h.alloc ⟨[], []⟩).2 rest new fuel) from rfl] at hs
      cases hm : h.mem a with
      | none => rw [hm] at hs; exact Option.noConfusion hs
      | some nd =>
        rw [hm] at hs
        dsimp only at hs
        cases hl : lookupA nd.groups g with
        | some b =>
          rw [hl] at hs
          dsimp only at hs
          have hb : N ≤ b := hhc a nd ha hm (g, b) (lookupA_mem nd.groups g b hl)
          exact setNode_props fuel h b rest new h2 N hhc hnext hb hs
        | none =>
          rw [hl] at hs
          dsimp only at hs
          have hwmem : ∀ b,
              ((h.alloc ⟨[], []⟩).1.write a ⟨nd.attrs, nd.groups ++ [(g, h.next)]⟩).mem b
              = if b = a then some ⟨nd.attrs, nd.groups ++ [(g, h.next)]⟩
                else if b = h.next then some ⟨[], []⟩ else h.mem b := fun b => rfl
          have hwnext :
              ((h.alloc ⟨[], []⟩).1.write a ⟨nd.attrs, nd.groups ++ [(g, h.next)]⟩).next
              = h.next + 1 := rfl
          have hwHC : HighClosed
              ((h.alloc ⟨[], []⟩).1.write a ⟨nd.attrs, nd.groups ++ [(g, h.next)]⟩) N := by
            intro b' nd' hb' hmem p hp
            rw [hwmem b'] at hmem
            by_cases hba : b' = a
            · rw [if_pos hba] at hmem
              have hnd' : nd' = ⟨nd.attrs, nd.groups ++ [(g, h.next)]⟩ :=
                (Option.some.inj hmem).symm
              subst hnd'
              rcases List.mem_append.mp hp with hp1 | hp2
              · exact hhc a nd ha hm p hp1
              · have : p = (g, h.next) := List.mem_singleton.mp hp2
                subst this
                exact hnext
            · rw [if_neg hba] at hmem
              by_cases hbn : b' = h.next
              · rw [if_pos hbn] at hmem
                have hnd' : nd' = ⟨[], []⟩ := (Option.some.inj hmem).symm
                subst hnd'
                cases hp
              · rw [if_neg hbn] at hmem
                exact hhc b' nd' hb' hmem p hp
          obtain ⟨ih1, ih2⟩ := setNode_props fuel
            ((h.alloc ⟨[], []⟩).1.write a ⟨nd.attrs, nd.groups ++ [(g, h.next)]⟩)
            h.next rest new h2 N hwHC (by rw [hwnext]; omega) hnext hs
          constructor
          · intro b hb
            rw [ih1 b hb, hwmem b, if_neg (by omega), if_neg (by omega)]
          · exact ih2

/-- C9: producing a derived handler deep-copies the entire attribute tree,
so that after any clone, mutating the attribute state of the derived
handler through a further `set` (`WithAttrs`) never changes the tree read
from any address that existed before the clone — in particular the
parent's tree, and (applying the theorem again to the heap produced by an
earlier clone) any sibling's tree. -/
theorem c9_clone_no_aliasing (h : Heap) (a r f1 f2 fr : Nat)
    (h1 : Heap) (c : Nat) (path : List GoStr) (new : List SAttr) (h2 : Heap)
    (hv : Valid h)
    (hc : cloneNode h a f1 = some (h1, c))
    (hs : setNode h1 c path new f2 = some h2)
    (hr : r < h.next) :
    readTree h2 r fr = readTree h r fr := by
  obtain ⟨hlow, hnext, hc0, hc1, hvalid1, hhc1⟩ := cloneNode_props f1 h a h1 c hv hc
  obtain ⟨hlow2, hnext2⟩ := setNode_props f2 h1 c path new h2 h.next hhc1 hnext hc0 hs
  have hagree : ∀ b, b < h.next → h2.mem b = h.mem b := fun b hb => by
    rw [hlow2 b hb, hlow b hb]
  exact (read_agree fr h h2 h.next hagree (fun b nd _ hm => hv.2 b nd hm)).1 r hr

/-- A tiny concrete heap: the parent tree at address 0 (one attr, one
child group at address 1). -/
def heapEx : Heap :=
  ⟨fun b =>
    if b = 0 then some ⟨[(gs "k", .bool true)], [(gs "g", 1)]⟩
    else if b = 1 then some ⟨[], []⟩
    else none, 2⟩

theorem heapEx_valid : Valid heapEx := by
  constructor
  · intro a ha
    have h2 : heapEx.next = 2 := rfl
    rw [h2] at ha
    rw [show heapEx.mem a
      = (if a = 0 then some ⟨[(gs "k", .bool true)], [(gs "g", 1)]⟩
         else if a = 1 then some ⟨[], []⟩ else none) from rfl]
    rw [if_neg (by omega), if_neg (by omega)]
  · intro a nd hm p hp
    rw [show heapEx.next = 2 from rfl]
    rw [show heapEx.mem a
      = (if a = 0 then some ⟨[(gs "k", .bool true)], [(gs "g", 1)]⟩
         else if a = 1 then some ⟨[], []⟩ else none) from rfl] at hm
    by_cases h0 : a = 0
    · rw [if_pos h0] at hm
      have hnd : nd = ⟨[(gs "k", .bool true)], [(gs "g", 1)]⟩ :=
        (Option.some.inj hm).symm
      subst hnd
      have : p = (gs "g", 1) := List.mem_singleton.mp hp
      subst this
      omega
    · rw [if_neg h0] at hm
      by_cases h1 : a = 1
      · rw [if_pos h1] at hm
        have hnd : nd = ⟨[], []⟩ := (Option.some.inj hm).symm
        subst hnd
        cases hp
      · rw [if_neg h1] at hm
        exact Option.noConfusion hm

/-- The heap and root produced by cloning the parent at address 0. -/
def cloneExPair : Heap × Nat := (cloneNode heapEx 0 10).get rfl

/-- The heap after a further `set` (a `WithAttrs` under a new group) on
the cloned root. -/
def setExHeap : Heap :=
  (setNode cloneExPair.1 cloneExPair.2 [gs "h2"] [(gs "a", .bool false)] 10).get rfl

/-- Witness for C9: after cloning the parent at address 0 and mutating
the clone, the tree read back at address 0 is unchanged. -/
theorem c9_clone_no_aliasing_witness :
    readTree setExHeap 0 4 = readTree heapEx 0 4 :=
  c9_clone_no_aliasing heapEx 0 0 10 10 4 cloneExPair.1 cloneExPair.2
    [gs "h2"] [(gs "a", .bool false)] setExHeap heapEx_valid
    rfl rfl (by decide)
